import Mathlib

/-!
A shallow embedding of databend's parallel final-stage aggregator
(`src/query/service/src/pipelines/processors/transforms/aggregator/aggregator_final_parallel.rs`),
together with proofs of the specification's claims about it.

The embedding is parameterized by four types:
  * `K` — group-key views produced by the `HashMethod` key iterator;
  * `V` — the opaque byte strings that serialize one partial aggregation state;
  * `S` — the in-memory aggregation state of one aggregate function;
  * `R` — the final values emitted by `merge_result`.

Machine addresses into the state arena (`StateAddr` in the source) are modeled
as indices into a list of state blocks, and a state block is a list of `S`
slots (one slot per byte offset in `offsets_aggregate_states`, which for a
well-formed configuration is `List.range n`).  Fallible Rust code returns
`Except ErrorCode`; `unwrap`/indexing panics are modeled as `ErrorCode.panicError`.
-/

namespace DatabendAgg

/-- Logical column types, enough to distinguish the byte-string (`StringType`)
state columns from everything else. -/
inductive DataType where
  | stringType
  | int32Type
  | keyType
  | resultType
  deriving DecidableEq, Repr

/-- The materialized content of one column: serialized-state byte strings,
group-key views, plain integers (a non-string state column for the
`IllegalDataType` path), or final aggregate values. -/
inductive ColumnData (K V R : Type) where
  | stringCol (vals : List V)
  | keyCol (keys : List K)
  | intCol (vals : List Int)
  | resultCol (vals : List R)
  deriving DecidableEq

/-- `Column::as_string()`: the byte-string payloads iff the column is a string
column (used by `merge_chunks` on every state column). -/
def ColumnData.as_string {K V R : Type} : ColumnData K V R → Option (List V)
  | .stringCol vs => some vs
  | _ => none

/-- Chunk metadata: either an `AggregateInfo` carrying a bucket id, or some
other metadata object (whose downcast to `AggregateInfo` fails). -/
inductive ChunkMeta where
  | aggregateInfo (bucket : Int)
  | otherMeta
  deriving DecidableEq, Repr

/-- A column chunk: an ordered list of (column, logical type) pairs, a row
count and optional metadata. -/
structure Chunk (K V R : Type) where
  columns : List (ColumnData K V R × DataType)
  num_rows : Nat
  meta : Option ChunkMeta
  deriving DecidableEq

/-- `Chunk::convert_to_full`.  The model represents column values as already
materialized columns (scalar broadcast is outside every claim), so
materialization is the identity. -/
def Chunk.convert_to_full {K V R : Type} (c : Chunk K V R) : Chunk K V R := c

/-- Errors surfaced by the aggregator.  `illegalDataType` records the logical
type that the error message formats; indexing/unwrap panics are `panicError`. -/
inductive ErrorCode where
  | illegalDataType (dt : DataType)
  | panicError
  deriving DecidableEq, Repr

/-- Modelled from the spec: the aggregate-function capability contract
(state size/alignment and `init` are folded into `init_state`; `deserialize`,
`merge`, `merge_result` are modeled as pure functions on states;
`need_manual_drop_state` flags functions whose states the drop sequence must
destroy). -/
structure AggregateFunction (V S R : Type) where
  init_state : S
  deserialize : V → S
  merge : S → S → S
  merge_result : S → R
  need_manual_drop_state : Bool

/-- Modelled from the spec: `AggregatorParams` — the ordered aggregate-function
list, the per-function state offsets inside one state block, and the output
schema's field types (aggregates first, then group keys). -/
structure AggregatorParams (V S R : Type) where
  aggregate_functions : List (AggregateFunction V S R)
  offsets_aggregate_states : List Nat
  output_schema_fields : List DataType

/-- Modelled from the spec: the state arena (`Area`), a bump allocator.  A
block is a list of state slots; an address is the block's index. -/
structure Area (S : Type) where
  blocks : List (List S)
  deriving DecidableEq

/-- `Area::create()`: the empty arena. -/
def Area.create {S : Type} : Area S := ⟨[]⟩

/-- Read the state at `(addr, offset)`; out-of-range reads (never reached from
a well-formed run) give the default. -/
def Area.read {S : Type} [Inhabited S] (a : Area S) (addr off : Nat) : S :=
  (a.blocks.getD addr []).getD off default

/-- Write the state at `(addr, offset)`; out-of-range writes are no-ops. -/
def Area.write {S : Type} (a : Area S) (addr off : Nat) (s : S) : Area S :=
  ⟨a.blocks.set addr ((a.blocks.getD addr []).set off s)⟩

/-- Modelled from the spec: `AggregatorParams::alloc_layout(&mut area)` — for a
non-empty function list, append one fresh block holding every function's
initialized state (at its offset; for a well-formed configuration the offsets
are `0, 1, …, n-1`) and return its base address; for an empty list return
nothing and leave the arena alone. -/
def AggregatorParams.alloc_layout {V S R : Type} (p : AggregatorParams V S R)
    (area : Area S) : Option Nat × Area S :=
  if p.aggregate_functions.isEmpty then (none, area)
  else (some area.blocks.length,
    ⟨area.blocks ++ [p.aggregate_functions.map (·.init_state)]⟩)

/-- First-match association lookup (the probe of the group-key hash table and
of the collector's `HashMap`). -/
def assocFind {K B : Type} [DecidableEq K] : List (K × B) → K → Option B
  | [], _ => none
  | e :: rest, k => if e.1 = k then some e.2 else assocFind rest k

/-- Modelled from the spec: the per-bucket merge engine (`BucketAggregator`) —
an arena, the configured params, the group-key hash table (an insertion-ordered
association list from key to state base address; iteration order is the stable
per-table order the contract requires), and the optional scratch state. -/
structure BucketAggregator (K V S R : Type) where
  area : Area S
  params : AggregatorParams V S R
  hash_table : List (K × Nat)
  temp_place : Option Nat

/-- `BucketAggregator::create`: fresh arena and table; the scratch state is
allocated iff there is at least one aggregate function. -/
def BucketAggregator.create {K V S R : Type} (params : AggregatorParams V S R) :
    BucketAggregator K V S R :=
  let area : Area S := Area.create
  if params.aggregate_functions.isEmpty then
    { area := area, params := params, hash_table := [], temp_place := none }
  else
    let r := params.alloc_layout area
    { area := r.2, params := params, hash_table := [], temp_place := r.1 }

/-- The loop body of `lookup_state` for one key: probe `insert_and_entry`.  On
a hit, push the stored address.  On an insert, if `alloc_layout` yields a block
push its address and store it in the entry; if it yields nothing the entry
keeps an uninitialized value (modeled as `0`) and nothing is pushed. -/
def lookup_step {K V S R : Type} [DecidableEq K]
    (acc : List Nat × BucketAggregator K V S R) (k : K) :
    List Nat × BucketAggregator K V S R :=
  match assocFind acc.2.hash_table k with
  | some addr => (acc.1 ++ [addr], acc.2)
  | none =>
    match acc.2.params.alloc_layout acc.2.area with
    | (some place, area2) =>
      (acc.1 ++ [place],
        { acc.2 with area := area2, hash_table := acc.2.hash_table ++ [(k, place)] })
    | (none, _) =>
      (acc.1, { acc.2 with hash_table := acc.2.hash_table ++ [(k, 0)] })

/-- `BucketAggregator::lookup_state`: run `lookup_step` over every key in row
order, collecting one state base address per pushed row. -/
def BucketAggregator.lookup_state {K V S R : Type} [DecidableEq K]
    (self : BucketAggregator K V S R) (keys : List K) :
    List Nat × BucketAggregator K V S R :=
  keys.foldl lookup_step ([], self)

/-- The body of the state-merge loop for one row: for every aggregate function
`idx`, deserialize the row's `idx`-th byte string into the scratch state at
`temp + offsets[idx]` and merge it into the final state at
`place + offsets[idx]`. -/
def merge_row {V S R : Type} [Inhabited S] [Inhabited V]
    (fns : List (AggregateFunction V S R)) (offs : List Nat) (temp place : Nat)
    (states_cols : List (List V)) (row : Nat) (area : Area S) : Area S :=
  fns.enum.foldl
    (fun ar p =>
      let off := offs.getD p.1 0
      let data := (states_cols.getD p.1 []).getD row default
      let ar1 := ar.write temp off (p.2.deserialize data)
      ar1.write place off (p.2.merge (ar1.read place off) (ar1.read temp off)))
    area

/-- Collect the first `n` columns as byte-string columns; a missing column is a
panic (`chunk.column(i)` indexes), a non-string column is `IllegalDataType`
carrying that column's logical type. -/
def check_string_cols {K V R : Type} :
    List (ColumnData K V R × DataType) → Nat → Except ErrorCode (List (List V))
  | _, 0 => .ok []
  | [], _ + 1 => .error .panicError
  | c :: rest, m + 1 =>
    match c.1.as_string with
    | some vs =>
      match check_string_cols rest m with
      | .ok tl => .ok (vs :: tl)
      | .error e => .error e
    | none => .error (.illegalDataType c.2)

/-- The with-aggregates body of `merge_one` once the key column is in hand and
the state columns have checked out as byte strings: obtain the per-row state
addresses from `lookup_state`, then (when a scratch state exists) run the
deserialize-and-merge loop over every row and function. -/
def merge_agg_core {K V S R : Type} [DecidableEq K] [Inhabited S] [Inhabited V]
    (self : BucketAggregator K V S R) (keys : List K) (scols : List (List V)) :
    BucketAggregator K V S R :=
  let pr := self.lookup_state keys
  match pr.2.temp_place with
  | none => pr.2
  | some temp =>
    { pr.2 with area :=
        (pr.1.enum.foldl
          (fun ar rp =>
            merge_row pr.2.params.aggregate_functions
              pr.2.params.offsets_aggregate_states temp rp.2 scols rp.1 ar)
          pr.2.area) }

/-- Fold one input chunk into the aggregator: materialize, read the key column
at index `aggregate_function_len`, then either insert every key (key-only mode)
or check the state columns are byte strings and run `merge_agg_core` (the
source interleaves the infallible `lookup_state` before the column check; both
are pure here, so the composition is the same function of the chunk). -/
def BucketAggregator.merge_one {K V S R : Type} [DecidableEq K] [Inhabited S] [Inhabited V]
    (hasAgg : Bool) (self : BucketAggregator K V S R) (chunk : Chunk K V R) :
    Except ErrorCode (BucketAggregator K V S R) :=
  let chunk := chunk.convert_to_full
  let n := self.params.aggregate_functions.length
  match chunk.columns.get? n with
  | none => .error .panicError
  | some col =>
    match col.1 with
    | .keyCol keys =>
      if !hasAgg then
        .ok { self with
          hash_table :=
            keys.foldl
              (fun t k => if (assocFind t k).isSome then t else t ++ [(k, 0)])
              self.hash_table }
      else
        match check_string_cols chunk.columns n with
        | .error e => .error e
        | .ok scols => .ok (merge_agg_core self keys scols)
    | _ => .error .panicError

/-- Fold a whole chunk list, stopping at the first error. -/
def BucketAggregator.merge_all {K V S R : Type} [DecidableEq K] [Inhabited S] [Inhabited V]
    (hasAgg : Bool) (self : BucketAggregator K V S R) :
    List (Chunk K V R) → Except ErrorCode (BucketAggregator K V S R)
  | [] => .ok self
  | c :: rest =>
    match self.merge_one hasAgg c with
    | .error e => .error e
    | .ok self2 => self2.merge_all hasAgg rest

/-- Modelled from the spec: the group-columns builder paired with the model's
key encoding rebuilds a single group column holding the stored keys. -/
def group_columns_of {K : Type} (keys : List K) : List (List K) := [keys]

/-- The emission phase of `merge_chunks`: walk the hash table, build the
aggregate-value columns (via `merge_result` on every stored state) and the
group columns, zip them against the output schema's fields (the running
`num_rows` ends as the last zipped column's length) and build one chunk with
no metadata.  `merge_result` is modeled pure, so building one column per
function over a single table walk is the source's builder loop. -/
def BucketAggregator.finish {K V S R : Type} [Inhabited S] (hasAgg : Bool)
    (self : BucketAggregator K V S R) : Chunk K V R :=
  let fields := self.params.output_schema_fields
  if !hasAgg then
    let keys := self.hash_table.map (·.1)
    let zipped := (group_columns_of keys).zip fields
    let num_rows := zipped.foldl (fun _ cf => cf.1.length) 0
    Chunk.mk (zipped.map (fun cf => (ColumnData.keyCol cf.1, cf.2))) num_rows none
  else
    let fns := self.params.aggregate_functions
    let offs := self.params.offsets_aggregate_states
    let agg_cols : List (List R) :=
      fns.enum.map (fun p =>
        self.hash_table.map (fun e => p.2.merge_result (self.area.read e.2 (offs.getD p.1 0))))
    let zipped := agg_cols.zip fields
    let num_rows := zipped.foldl (fun _ cf => cf.1.length) 0
    let agg_out := zipped.map (fun cf => ((ColumnData.resultCol cf.1 : ColumnData K V R), cf.2))
    let group_cols := group_columns_of (self.hash_table.map (·.1))
    let group_out :=
      (group_cols.zip (fields.drop agg_out.length)).map
        (fun cf => ((ColumnData.keyCol cf.1 : ColumnData K V R), cf.2))
    Chunk.mk (agg_out ++ group_out) num_rows none

/-- `BucketAggregator::merge_chunks`: fold every chunk, then emit exactly one
output chunk. -/
def BucketAggregator.merge_chunks {K V S R : Type} [DecidableEq K] [Inhabited S] [Inhabited V]
    (hasAgg : Bool) (self : BucketAggregator K V S R) (chunks : List (Chunk K V R)) :
    Except ErrorCode (BucketAggregator K V S R × List (Chunk K V R)) :=
  match self.merge_all hasAgg chunks with
  | .error e => .error e
  | .ok self2 => .ok (self2, [self2.finish hasAgg])

/-- The drop sequence of `BucketAggregator` as the list of `drop_state` calls
it emits, each recorded as `(state base address, state offset)`: filter the
functions needing a manual drop and their offsets, then walk the hash table
(one call per entry per kept function), then the scratch state. -/
def BucketAggregator.drop_trace {K V S R : Type}
    (self : BucketAggregator K V S R) : List (Nat × Nat) :=
  let aggregate_functions := self.params.aggregate_functions
  let offsets_aggregate_states := self.params.offsets_aggregate_states
  let functions := aggregate_functions.filter (·.need_manual_drop_state)
  let state_offsets :=
    (offsets_aggregate_states.enum.filter
        (fun io => ((aggregate_functions.get? io.1).map (·.need_manual_drop_state)).getD false)).map
      (·.2)
  let table_calls :=
    self.hash_table.flatMap (fun e => (functions.zip state_offsets).map (fun fo => (e.2, fo.2)))
  let scratch_calls :=
    match self.temp_place with
    | some tp => (state_offsets.zip functions).map (fun of => (tp, of.1))
    | none => []
  table_calls ++ scratch_calls

/-- The bucket id `consume` reads from a chunk: the `AggregateInfo` bucket when
the metadata downcasts to one, `-1` otherwise. -/
def bucketOfChunk {K V R : Type} (c : Chunk K V R) : Int :=
  match c.meta with
  | some (ChunkMeta.aggregateInfo b) => b
  | _ => -1

/-- `HashMap::entry` append: push onto the first entry with this bucket id, or
insert a fresh singleton vector. -/
def bucketsAdd {K V R : Type} :
    List (Int × List (Chunk K V R)) → Int → Chunk K V R → List (Int × List (Chunk K V R))
  | [], b, c => [(b, [c])]
  | e :: rest, b, c =>
    if e.1 = b then (e.1, e.2 ++ [c]) :: rest else e :: bucketsAdd rest b c

/-- The parallel collector (`ParallelFinalAggregator`): the configured params,
the `max_threads` setting of its query context, and the bucket-indexed chunk
map (an insertion-ordered association list standing for the `HashMap`). -/
structure ParallelFinalAggregator (K V S R : Type) where
  params : AggregatorParams V S R
  max_threads : Nat
  buckets_chunks : List (Int × List (Chunk K V R))

/-- `ParallelFinalAggregator::consume`: read the bucket id from the chunk's
metadata (`-1` when absent or not an `AggregateInfo`) and append the chunk to
that bucket's vector. -/
def ParallelFinalAggregator.consume {K V S R : Type}
    (self : ParallelFinalAggregator K V S R) (chunk : Chunk K V R) :
    Except ErrorCode (ParallelFinalAggregator K V S R) :=
  .ok { self with buckets_chunks := bucketsAdd self.buckets_chunks (bucketOfChunk chunk) chunk }

/-- The parallel arm of `generate`: one fresh bucket aggregator per bucket,
`merge_chunks` on exactly that bucket's chunks, results concatenated in join
order, the first worker error winning. -/
def run_buckets {K V S R : Type} [DecidableEq K] [Inhabited S] [Inhabited V]
    (hasAgg : Bool) (params : AggregatorParams V S R) :
    List (Int × List (Chunk K V R)) → Except ErrorCode (List (Chunk K V R))
  | [] => .ok []
  | b :: rest =>
    match BucketAggregator.merge_chunks (K := K) hasAgg (BucketAggregator.create params) b.2 with
    | .error e => .error e
    | .ok pr =>
      match run_buckets hasAgg params rest with
      | .error e => .error e
      | .ok more => .ok (pr.2 ++ more)

/-- `ParallelFinalAggregator::generate`: serial when `max_threads ≤ 1`, or
exactly one bucket is present, or bucket `-1` is present (flatten every bucket
vector and run one bucket aggregator); otherwise parallel when more than one
bucket is present; otherwise the untouched empty output vector. -/
def ParallelFinalAggregator.generate {K V S R : Type} [DecidableEq K] [Inhabited S] [Inhabited V]
    (hasAgg : Bool) (self : ParallelFinalAggregator K V S R) :
    Except ErrorCode (List (Chunk K V R)) :=
  if self.max_threads ≤ 1 ∨ self.buckets_chunks.length = 1 ∨
      (assocFind self.buckets_chunks (-1)).isSome then
    let chunks := (self.buckets_chunks.map (·.2)).flatten
    match BucketAggregator.merge_chunks (K := K) hasAgg
        (BucketAggregator.create self.params) chunks with
    | .error e => .error e
    | .ok pr => .ok pr.2
  else if self.buckets_chunks.length > 1 then
    run_buckets hasAgg self.params self.buckets_chunks
  else
    .ok []

/-- The three ways control can leave `generate`: the serial branch, the
parallel branch, or neither (no bucket at all with several threads). -/
inductive DispatchPath where
  | serialPath
  | parallelPath
  | emptyPath
  deriving DecidableEq, Repr

/-- Which branch `generate` takes, read off its condition structure. -/
def ParallelFinalAggregator.dispatch_of {K V S R : Type} [DecidableEq K]
    (self : ParallelFinalAggregator K V S R) : DispatchPath :=
  if self.max_threads ≤ 1 ∨ self.buckets_chunks.length = 1 ∨
      (assocFind self.buckets_chunks (-1)).isSome then
    DispatchPath.serialPath
  else if self.buckets_chunks.length > 1 then
    DispatchPath.parallelPath
  else
    DispatchPath.emptyPath

/-! ## Claim-level views of chunks and aggregator states -/

/-- The column value at index `i` (the default is never reached on well-formed
chunks). -/
def chunk_col {K V R : Type} (c : Chunk K V R) (i : Nat) : ColumnData K V R :=
  (c.columns.getD i (ColumnData.keyCol [], DataType.keyType)).1

/-- The group keys of an input chunk for an aggregator with `n` aggregate
functions: the content of the key column at index `n`. -/
def chunk_keys {K V R : Type} (n : Nat) (c : Chunk K V R) : List K :=
  match chunk_col c n with
  | .keyCol ks => ks
  | _ => []

/-- Whether a column is a key column. -/
def is_key_col {K V R : Type} : ColumnData K V R → Bool
  | .keyCol _ => true
  | _ => false

/-- The byte strings of state column `i`. -/
def chunk_state_col {K V R : Type} (c : Chunk K V R) (i : Nat) : List V :=
  match chunk_col c i with
  | .stringCol vs => vs
  | _ => []

/-- A well-formed input chunk for the with-aggregates mode upstream contract:
`n` byte-string state columns, then one key column, every state column as long
as the key column. -/
def chunk_wf {K V R : Type} (n : Nat) (c : Chunk K V R) : Bool :=
  c.columns.length = n + 1 &&
  (match chunk_col c n with
   | .keyCol _ => true
   | _ => false) &&
  (List.range n).all (fun i =>
    match chunk_col c i with
    | .stringCol vs => vs.length = (chunk_keys n c).length
    | _ => false)

/-- The rows of a key list starting at row index `s`: each key paired with its
payload vector (state column `idx` at that row, for `idx < n`). -/
def rows_from {K V R : Type} [Inhabited V] (c : Chunk K V R) (n : Nat) :
    List K → Nat → List (K × List V)
  | [], _ => []
  | k :: ks, s =>
    (k, (List.range n).map (fun idx => (chunk_state_col c idx).getD s default)) ::
      rows_from c n ks (s + 1)

/-- All `(key, payload vector)` rows of an input chunk, in row order. -/
def chunk_rows {K V R : Type} [Inhabited V] (n : Nat) (c : Chunk K V R) :
    List (K × List V) :=
  rows_from c n (chunk_keys n c) 0

/-- One specification-level merge step on a whole state block: slot `idx`
becomes `merge (block idx) (deserialize (payload idx))`. -/
def block_step {V S R : Type} [Inhabited S] [Inhabited V]
    (fns : List (AggregateFunction V S R)) (block : List S) (payload : List V) : List S :=
  fns.enum.map (fun p => p.2.merge (block.getD p.1 default) (p.2.deserialize (payload.getD p.1 default)))

/-- The freshly initialized state block. -/
def init_block {V S R : Type} (fns : List (AggregateFunction V S R)) : List S :=
  fns.map (·.init_state)

/-- The payload vectors carried by the rows of key `k`, in row order. -/
def key_payloads {K V : Type} [DecidableEq K] (rows : List (K × List V)) (k : K) :
    List (List V) :=
  (rows.filter (fun r => r.1 = k)).map (·.2)

/-- The reference state of key `k` after serially folding `rows`: the
initialized block folded through `block_step` over `k`'s payloads. -/
def key_state {K V S R : Type} [DecidableEq K] [Inhabited S] [Inhabited V]
    (fns : List (AggregateFunction V S R)) (rows : List (K × List V)) (k : K) : List S :=
  (key_payloads rows k).foldl (block_step fns) (init_block fns)

/-- The distinct keys of a key list in first-occurrence order — the key set of
a hash table built by inserting them in order. -/
def table_keys {K : Type} [DecidableEq K] (ks : List K) : List K :=
  ks.foldl (fun acc k => if k ∈ acc then acc else acc ++ [k]) []

/-- The position of `k` in a list (length when absent). -/
def idx_of {K : Type} [DecidableEq K] : List K → K → Nat
  | [], _ => 0
  | a :: l, k => if a = k then 0 else idx_of l k + 1

/-- The final aggregate values read off one state block. -/
def results_of {V S R : Type} [Inhabited S]
    (fns : List (AggregateFunction V S R)) (block : List S) : List R :=
  fns.enum.map (fun p => p.2.merge_result (block.getD p.1 default))

/-- The reference result rows of serially folding `rows`: one row per distinct
key in first-occurrence order, carrying that key's final aggregate values. -/
def spec_rows {K V S R : Type} [DecidableEq K] [Inhabited S] [Inhabited V]
    (fns : List (AggregateFunction V S R)) (rows : List (K × List V)) :
    List (K × List R) :=
  (table_keys (rows.map (·.1))).map (fun k => (k, results_of fns (key_state fns rows k)))

/-- The `(group key, final aggregate values)` rows held by an aggregator's hash
table and arena. -/
def final_rows {K V S R : Type} [Inhabited S] (ba : BucketAggregator K V S R) :
    List (K × List R) :=
  ba.hash_table.map (fun e =>
    (e.1, ba.params.aggregate_functions.enum.map (fun p =>
      p.2.merge_result (ba.area.read e.2 (ba.params.offsets_aggregate_states.getD p.1 0)))))

/-- The `(group key, final aggregate values)` rows of an emitted output chunk
(`n` aggregate-value columns, then the group-key column). -/
def chunk_out_rows {K V R : Type} [Inhabited R] (n : Nat) (c : Chunk K V R) :
    List (K × List R) :=
  let ks : List K :=
    match chunk_col c n with
    | .keyCol ks => ks
    | _ => []
  ks.enum.map
    (fun ik =>
      (ik.2, (List.range n).map (fun idx =>
        match chunk_col c idx with
        | .resultCol rs => rs.getD ik.1 default
        | _ => default)))

/-- Modelled from the spec: the reference serial run — one fresh bucket
aggregator merging the plain concatenation of all consumed chunks. -/
def serial_reference {K V S R : Type} [DecidableEq K] [Inhabited S] [Inhabited V]
    (hasAgg : Bool) (params : AggregatorParams V S R) (inputs : List (Chunk K V R)) :
    Except ErrorCode (List (Chunk K V R)) :=
  match BucketAggregator.merge_chunks (K := K) hasAgg (BucketAggregator.create params) inputs with
  | .error e => .error e
  | .ok pr => .ok pr.2

/-- Feed a whole input stream through `consume`. -/
def consume_all {K V S R : Type} (self : ParallelFinalAggregator K V S R) :
    List (Chunk K V R) → Except ErrorCode (ParallelFinalAggregator K V S R)
  | [] => .ok self
  | c :: rest =>
    match self.consume c with
    | .error e => .error e
    | .ok self2 => consume_all self2 rest

/-- A fresh collector before any chunk is consumed. -/
def collector0 {K V S R : Type} (params : AggregatorParams V S R) (max_threads : Nat) :
    ParallelFinalAggregator K V S R :=
  { params := params, max_threads := max_threads, buckets_chunks := [] }

/-- The chunk vector stored under bucket `b`. -/
def bucket_get {K V R : Type} (m : List (Int × List (Chunk K V R))) (b : Int) :
    List (Chunk K V R) :=
  (assocFind m b).getD []

/-- How many keys of `ks`, probed in order against a table that inserts every
missed key, hit a key already present. -/
def present_count {K : Type} [DecidableEq K] (t : List (K × Nat)) : List K → Nat
  | [] => 0
  | k :: ks =>
    match assocFind t k with
    | some _ => 1 + present_count t ks
    | none => present_count (t ++ [(k, 0)]) ks

/-- A sequence of `lookup_state` calls on the same aggregator, collecting every
call's returned address vector. -/
def lookup_runs {K V S R : Type} [DecidableEq K] (ba : BucketAggregator K V S R) :
    List (List K) → BucketAggregator K V S R × List (List Nat)
  | [] => (ba, [])
  | ks :: rest =>
    let pr := ba.lookup_state ks
    let r := lookup_runs pr.2 rest
    (r.1, pr.1 :: r.2)

/-! ## Concrete instances used by witnesses and counterexamples

Keys are naturals, payloads/states/results are integers; `sumFn` is SUM with
identity serialization, flagged as needing a manual state drop. -/

/-- A SUM aggregate function: integer state, payloads deserialized as-is. -/
def sumFn : AggregateFunction Int Int Int :=
  { init_state := 0, deserialize := id, merge := (· + ·), merge_result := id,
    need_manual_drop_state := true }

/-- Params with the single aggregate function `sumFn`. -/
def sumParams : AggregatorParams Int Int Int :=
  { aggregate_functions := [sumFn], offsets_aggregate_states := [0],
    output_schema_fields := [DataType.resultType, DataType.keyType] }

/-- Key-only params: no aggregate function, one group field. -/
def keyOnlyParams : AggregatorParams Int Int Int :=
  { aggregate_functions := [], offsets_aggregate_states := [],
    output_schema_fields := [DataType.keyType] }

/-- Bucket-0 chunk: keys `[1,1,2]` with partial sums `[1,2,5]`. -/
def chunkB0 : Chunk Nat Int Int :=
  { columns := [(.stringCol [1, 2, 5], .stringType), (.keyCol [1, 1, 2], .keyType)],
    num_rows := 3, meta := some (.aggregateInfo 0) }

/-- Bucket-1 chunk: keys `[3,3]` with partial sums `[7,8]`. -/
def chunkB1 : Chunk Nat Int Int :=
  { columns := [(.stringCol [7, 8], .stringType), (.keyCol [3, 3], .keyType)],
    num_rows := 2, meta := some (.aggregateInfo 1) }

/-- A chunk whose state column is an integer column instead of a byte-string
column. -/
def chunkBad : Chunk Nat Int Int :=
  { columns := [(.intCol [1, 2], .int32Type), (.keyCol [1, 2], .keyType)],
    num_rows := 2, meta := some (.aggregateInfo 0) }

/-- Key-only chunks of the spec's Scenario A. -/
def chunkKA : Chunk Nat Int Int :=
  { columns := [(.keyCol [1, 2, 2, 3], .keyType)], num_rows := 4,
    meta := some (.aggregateInfo 0) }

/-- Second key-only chunk of Scenario A. -/
def chunkKB : Chunk Nat Int Int :=
  { columns := [(.keyCol [2, 3, 4], .keyType)], num_rows := 3,
    meta := some (.aggregateInfo 1) }

/-- The invariant tying a with-aggregates bucket aggregator to the rows it has
folded so far (for a well-formed configuration whose offsets are
`0, 1, …, n-1`): the scratch block sits at address 0, the hash table maps the
distinct keys in first-occurrence order to addresses `1, 2, …`, and every
key's block holds the reference `key_state`. -/
def good_state {K V S R : Type} [DecidableEq K] [Inhabited S] [Inhabited V]
    (fns : List (AggregateFunction V S R)) (rows : List (K × List V))
    (ba : BucketAggregator K V S R) : Prop :=
  ba.params.aggregate_functions = fns ∧
  ba.params.offsets_aggregate_states = List.range fns.length ∧
  ba.temp_place = some 0 ∧
  ba.hash_table =
    (table_keys (rows.map (·.1))).enum.map (fun ik => (ik.2, ik.1 + 1)) ∧
  ba.area.blocks.length = (table_keys (rows.map (·.1))).length + 1 ∧
  (ba.area.blocks.getD 0 []).length = fns.length ∧
  (∀ k, k ∈ table_keys (rows.map (·.1)) →
    ba.area.blocks.getD (idx_of (table_keys (rows.map (·.1))) k + 1) [] =
      key_state fns rows k)

/-- A small aggregator state for exercising the drop sequence: one SUM
function, a scratch state at address 0 and one hash-table entry at address 1. -/
def dropBA : BucketAggregator Nat Int Int Int :=
  { area := ⟨[[0], [3]]⟩, params := sumParams, hash_table := [(7, 1)], temp_place := some 0 }

/-! ## Basic association-list lemmas -/

theorem assocFind_append_some {K B : Type} [DecidableEq K] {t : List (K × B)} {k : K} {b : B}
    (l : List (K × B)) (h : assocFind t k = some b) : assocFind (t ++ l) k = some b := by
  induction t with
  | nil => simp [assocFind] at h
  | cons e rest ih =>
    by_cases he : e.1 = k
    · simp [assocFind, he] at h ⊢; exact h
    · simp [assocFind, he] at h ⊢; exact ih h

theorem assocFind_append_none {K B : Type} [DecidableEq K] {t : List (K × B)} {k : K}
    (l : List (K × B)) (h : assocFind t k = none) : assocFind (t ++ l) k = assocFind l k := by
  induction t with
  | nil => simp
  | cons e rest ih =>
    by_cases he : e.1 = k
    · simp [assocFind, he] at h
    · simp [assocFind, he] at h ⊢; exact ih h

theorem assocFind_isSome_iff {K B : Type} [DecidableEq K] {t : List (K × B)} {k : K} :
    (assocFind t k).isSome = true ↔ k ∈ t.map (·.1) := by
  induction t with
  | nil => simp [assocFind]
  | cons e rest ih =>
    by_cases he : e.1 = k
    · simp [assocFind, he]
    · simp [assocFind, he, ih, Ne.symm he]

/-! ## C9: consume appends to exactly the metadata's bucket -/

theorem bucket_get_bucketsAdd {K V R : Type} (m : List (Int × List (Chunk K V R)))
    (b b2 : Int) (c : Chunk K V R) :
    bucket_get (bucketsAdd m b c) b2 =
      if b2 = b then bucket_get m b ++ [c] else bucket_get m b2 := by
  induction m with
  | nil =>
    by_cases h : b2 = b
    · subst h; simp [bucketsAdd, bucket_get, assocFind]
    · have hb : ¬ b = b2 := fun hh => h hh.symm
      simp [bucketsAdd, bucket_get, assocFind, h, hb]
  | cons e rest ih =>
    obtain ⟨e1, e2⟩ := e
    by_cases heb : e1 = b
    · subst heb
      by_cases h : b2 = e1
      · subst h
        simp [bucketsAdd, bucket_get, assocFind]
      · have hb : ¬ e1 = b2 := fun hh => h hh.symm
        simp [bucketsAdd, bucket_get, assocFind, h, hb]
    · by_cases h2 : e1 = b2
      · subst h2
        simp [bucketsAdd, bucket_get, assocFind, heb]
      · by_cases h : b2 = b
        · subst h
          simp only [bucket_get] at ih
          simp [bucketsAdd, bucket_get, assocFind, heb, h2, ih]
        · simp only [bucket_get] at ih
          simp [bucketsAdd, bucket_get, assocFind, heb, h2, ih, h]


/-- C9: `consume` always succeeds and appends the chunk to the vector stored
under the bucket id read from the chunk's `AggregateInfo` metadata — `-1` when
the chunk carries no metadata or metadata that is not an `AggregateInfo` —
leaving every other bucket's vector unchanged, the appended chunk becoming the
last element of its bucket's vector. -/
theorem consume_appends_to_bucket {K V S R : Type} (st : ParallelFinalAggregator K V S R)
    (c : Chunk K V R) :
    ∃ st2, st.consume c = Except.ok st2 ∧
      (∀ b : Int, bucket_get st2.buckets_chunks b =
        if b = bucketOfChunk c then bucket_get st.buckets_chunks b ++ [c]
        else bucket_get st.buckets_chunks b) ∧
      (bucket_get st2.buckets_chunks (bucketOfChunk c)).getLast? = some c ∧
      (c.meta = none → bucketOfChunk c = -1) ∧
      (c.meta = some ChunkMeta.otherMeta → bucketOfChunk c = -1) ∧
      (∀ b : Int, c.meta = some (ChunkMeta.aggregateInfo b) → bucketOfChunk c = b) := by
  refine ⟨_, rfl, ?_, ?_, ?_, ?_, ?_⟩
  · intro b
    have h := bucket_get_bucketsAdd st.buckets_chunks (bucketOfChunk c) b c
    by_cases hb : b = bucketOfChunk c
    · subst hb; simpa using h
    · simpa [hb] using h
  · have h := bucket_get_bucketsAdd st.buckets_chunks (bucketOfChunk c) (bucketOfChunk c) c
    rw [if_pos rfl] at h
    simp [ParallelFinalAggregator.consume, h]
  · intro h; simp [bucketOfChunk, h]
  · intro h; simp [bucketOfChunk, h]
  · intro b h; simp [bucketOfChunk, h]

/-- C2: `generate` takes the serial path iff `max_threads ≤ 1`, or exactly one
bucket is present, or bucket `-1` is present; in every other case with at
least two buckets it takes the parallel path; the serial path merges the
flattened bucket vectors with a single fresh bucket aggregator and the
parallel path runs one fresh bucket aggregator per bucket on exactly that
bucket's chunks. -/
theorem generate_dispatch {K V S R : Type} [DecidableEq K] [Inhabited S] [Inhabited V]
    (hasAgg : Bool) (st : ParallelFinalAggregator K V S R) :
    (st.dispatch_of = DispatchPath.serialPath ↔
      (st.max_threads ≤ 1 ∨ st.buckets_chunks.length = 1 ∨
        (assocFind st.buckets_chunks (-1)).isSome)) ∧
    (st.dispatch_of = DispatchPath.parallelPath ↔
      (¬ (st.max_threads ≤ 1 ∨ st.buckets_chunks.length = 1 ∨
          (assocFind st.buckets_chunks (-1)).isSome) ∧
        2 ≤ st.buckets_chunks.length)) ∧
    (st.dispatch_of = DispatchPath.serialPath →
      st.generate hasAgg =
        serial_reference hasAgg st.params (st.buckets_chunks.map (·.2)).flatten) ∧
    (st.dispatch_of = DispatchPath.parallelPath →
      st.generate hasAgg = run_buckets hasAgg st.params st.buckets_chunks) := by
  unfold ParallelFinalAggregator.dispatch_of ParallelFinalAggregator.generate
  split_ifs with h1 h2
  · refine ⟨by simp [h1], by simp [h1], fun _ => ?_, by simp⟩
    simp [serial_reference]
  · refine ⟨by simp [h1], by simp [h1, h2, Nat.succ_le_iff], by simp [h1], fun _ => rfl⟩
  · have hle : st.buckets_chunks.length ≤ 1 := Nat.le_of_not_lt h2
    refine ⟨by simp [h1], ?_, by simp [h1], by simp⟩
    constructor
    · intro h; cases h
    · intro h; omega

/-- All first components of a zipped list being empty makes the running
`num_rows` fold end at `0`. -/
theorem num_rows_foldl_nil {A B : Type} :
    ∀ z : List (List A × B), (∀ cf ∈ z, cf.1 = ([] : List A)) →
      z.foldl (fun _ cf => cf.1.length) 0 = 0
  | [], _ => rfl
  | e :: rest, h => by
    have he : e.1 = [] := h e (List.mem_cons_self _ _)
    have hstep : (e :: rest).foldl (fun _ cf => cf.1.length) 0 =
        rest.foldl (fun _ cf => cf.1.length) 0 := by
      simp [List.foldl_cons, he]
    rw [hstep]
    exact num_rows_foldl_nil rest (fun cf hcf => h cf (List.mem_cons_of_mem _ hcf))

/-- A fresh bucket aggregator has an empty hash table and the given params. -/
theorem create_hash_table_params {K V S R : Type} (params : AggregatorParams V S R) :
    (BucketAggregator.create (K := K) params).hash_table = [] ∧
    (BucketAggregator.create (K := K) params).params = params := by
  unfold BucketAggregator.create
  split_ifs <;> exact ⟨rfl, rfl⟩

/-- The chunk `finish` emits from an empty hash table has zero rows. -/
theorem finish_empty_num_rows {K V S R : Type} [Inhabited S] (hasAgg : Bool)
    (ba : BucketAggregator K V S R) (h : ba.hash_table = []) :
    (ba.finish hasAgg).num_rows = 0 := by
  unfold BucketAggregator.finish
  cases hasAgg with
  | false =>
    simp only [Bool.not_false, if_pos]
    apply num_rows_foldl_nil
    intro cf hcf
    have h1 := (List.of_mem_zip hcf).1
    simp [group_columns_of, h] at h1
    exact h1
  | true =>
    simp only [Bool.not_true, if_neg]
    apply num_rows_foldl_nil
    intro cf hcf
    have h1 := (List.of_mem_zip hcf).1
    simp only [h, List.map_nil] at h1
    obtain ⟨p, _, hp⟩ := List.mem_map.mp h1
    exact hp.symm

/-- C3 (amended): with zero chunks consumed, `generate` returns the empty
chunk list whenever `max_threads > 1`; with `max_threads ≤ 1` the serial
branch still runs on the empty chunk list and returns exactly one chunk,
which has zero rows.  This holds in both modes and for every parameter set. -/
theorem generate_empty_input {K V S R : Type} [DecidableEq K] [Inhabited S] [Inhabited V]
    (hasAgg : Bool) (params : AggregatorParams V S R) (mt : Nat) :
    (2 ≤ mt → (collector0 (K := K) params mt).generate hasAgg = Except.ok []) ∧
    (mt ≤ 1 → ∃ ch, (collector0 (K := K) params mt).generate hasAgg = Except.ok [ch] ∧
      ch.num_rows = 0) := by
  constructor
  · intro hmt
    have h1 : ¬ (mt ≤ 1) := by omega
    simp [ParallelFinalAggregator.generate, collector0, assocFind, h1]
  · intro hmt
    refine ⟨(BucketAggregator.create (K := K) params).finish hasAgg, ?_, ?_⟩
    · simp [ParallelFinalAggregator.generate, collector0, assocFind, hmt,
        BucketAggregator.merge_chunks, BucketAggregator.merge_all]
    · exact finish_empty_num_rows hasAgg _ (create_hash_table_params params).1

/-- C3 counterexample: with zero chunks consumed and `max_threads = 1` the
serial branch runs on no input and emits one (zero-row) chunk, so `generate`
does not return an empty chunk list. -/
theorem generate_empty_input_cex :
    ¬ ((collector0 (K := Nat) keyOnlyParams 1).generate false = Except.ok []) := by
  intro h
  obtain ⟨ch, hch, _⟩ := (generate_empty_input (K := Nat) false keyOnlyParams 1).2 (by omega)
  rw [h] at hch
  exact List.cons_ne_nil ch [] (Except.ok.inj hch).symm


/-! ## `lookup_state` lemmas (C10, C4) -/

theorem lookup_step_shift {K V S R : Type} [DecidableEq K]
    (ps : List Nat) (ba : BucketAggregator K V S R) (k : K) :
    lookup_step (ps, ba) k =
      (ps ++ (lookup_step ([], ba) k).1, (lookup_step ([], ba) k).2) := by
  unfold lookup_step
  cases hfind : assocFind ba.hash_table k with
  | some addr => simp
  | none =>
    cases halloc : ba.params.alloc_layout ba.area with
    | mk o area2 =>
      cases o with
      | some place => simp
      | none => simp

theorem lookup_foldl_shift {K V S R : Type} [DecidableEq K] (ks : List K) :
    ∀ (ba : BucketAggregator K V S R) (ps : List Nat),
      ks.foldl lookup_step (ps, ba) =
        (ps ++ (ks.foldl lookup_step ([], ba)).1, (ks.foldl lookup_step ([], ba)).2) := by
  induction ks with
  | nil => intro ba ps; simp
  | cons k ks ih =>
    intro ba ps
    rw [List.foldl_cons, List.foldl_cons, lookup_step_shift ps ba k,
      lookup_step_shift [] ba k, List.nil_append]
    rw [ih (lookup_step ([], ba) k).2 (ps ++ (lookup_step ([], ba) k).1),
      ih (lookup_step ([], ba) k).2 (lookup_step ([], ba) k).1]
    simp

theorem lookup_step_params {K V S R : Type} [DecidableEq K]
    (acc : List Nat × BucketAggregator K V S R) (k : K) :
    (lookup_step acc k).2.params = acc.2.params := by
  unfold lookup_step
  cases hfind : assocFind acc.2.hash_table k with
  | some addr => rfl
  | none =>
    cases halloc : acc.2.params.alloc_layout acc.2.area with
    | mk o area2 => cases o <;> rfl

/-- C10: with zero aggregate functions `alloc_layout` yields nothing, so
`lookup_state` pushes no address when a key is newly inserted; the returned
vector's length is the number of rows whose key was already present in the
hash table at that row's probe, not the total number of rows. -/
theorem lookup_state_no_agg {K V S R : Type} [DecidableEq K]
    (ba : BucketAggregator K V S R) (hfns : ba.params.aggregate_functions = [])
    (keys : List K) :
    (ba.lookup_state keys).1.length = present_count ba.hash_table keys := by
  induction keys generalizing ba with
  | nil => simp [BucketAggregator.lookup_state, present_count]
  | cons k ks ih =>
    have halloc : ba.params.alloc_layout ba.area = (none, ba.area) := by
      simp [AggregatorParams.alloc_layout, hfns]
    unfold BucketAggregator.lookup_state at ih ⊢
    rw [List.foldl_cons]
    cases hfind : assocFind ba.hash_table k with
    | some addr =>
      have hstep : lookup_step ([], ba) k = ([addr], ba) := by
        simp [lookup_step, hfind]
      rw [hstep, lookup_foldl_shift]
      simp [present_count, hfind, ih ba hfns, Nat.add_comm]
    | none =>
      have hstep : lookup_step ([], ba) k =
          ([], { ba with hash_table := ba.hash_table ++ [(k, 0)] }) := by
        simp [lookup_step, hfind, halloc]
      rw [hstep]
      simp only [present_count, hfind]
      exact ih { ba with hash_table := ba.hash_table ++ [(k, 0)] } hfns

/-- C10 witness: on a fresh key-only aggregator probing keys `[1, 1, 2]`, only
the second row's key is already present, so one address is returned. -/
theorem lookup_state_no_agg_witness :
    ((BucketAggregator.create (K := Nat) keyOnlyParams).lookup_state [1, 1, 2]).1.length =
      present_count (BucketAggregator.create (K := Nat) keyOnlyParams).hash_table [1, 1, 2] ∧
    present_count (BucketAggregator.create (K := Nat) keyOnlyParams).hash_table [1, 1, 2] = 1 := by
  exact ⟨lookup_state_no_agg _ rfl _, by decide⟩

/-! ## C6: a non-string state column raises IllegalDataType -/

theorem is_key_col_iff {K V R : Type} (cd : ColumnData K V R) :
    is_key_col cd = true ↔ ∃ ks, cd = ColumnData.keyCol ks := by
  cases cd <;> simp [is_key_col]

theorem check_string_cols_classify {K V R : Type} :
    ∀ (n : Nat) (cols : List (ColumnData K V R × DataType)), n ≤ cols.length →
      (∃ scols, check_string_cols (V := V) cols n = Except.ok scols) ∨
      (∃ dt, check_string_cols (V := V) cols n = Except.error (ErrorCode.illegalDataType dt))
  | 0, cols, _ => Or.inl ⟨[], by cases cols <;> rfl⟩
  | n + 1, [], h => absurd h (by simp)
  | n + 1, c :: rest, h => by
    cases hs : c.1.as_string with
    | none =>
      exact Or.inr ⟨c.2, by simp [check_string_cols, hs]⟩
    | some vs =>
      rcases check_string_cols_classify n rest (by simpa using h) with ⟨scols, hok⟩ | ⟨dt, herr⟩
      · exact Or.inl ⟨vs :: scols, by simp [check_string_cols, hs, hok]⟩
      · exact Or.inr ⟨dt, by simp [check_string_cols, hs, herr]⟩

theorem check_string_cols_bad {K V R : Type} :
    ∀ (n : Nat) (cols : List (ColumnData K V R × DataType)), n ≤ cols.length →
      (∃ i, i < n ∧ ((cols.getD i (ColumnData.keyCol [], DataType.keyType)).1).as_string = none) →
      ∃ dt, check_string_cols (V := V) cols n = Except.error (ErrorCode.illegalDataType dt)
  | 0, _, _, ⟨_, hi, _⟩ => absurd hi (by omega)
  | n + 1, [], h, _ => absurd h (by simp)
  | n + 1, c :: rest, h, ⟨i, hi, hbad⟩ => by
    cases hs : c.1.as_string with
    | none => exact ⟨c.2, by simp [check_string_cols, hs]⟩
    | some vs =>
      have hipos : i ≠ 0 := by
        intro h0; rw [h0] at hbad; simp [List.getD] at hbad; rw [hs] at hbad; cases hbad
      obtain ⟨j, rfl⟩ := Nat.exists_eq_succ_of_ne_zero hipos
      have hrec := check_string_cols_bad n rest (by simpa using h)
        ⟨j, by omega, by simpa using hbad⟩
      obtain ⟨dt, hdt⟩ := hrec
      exact ⟨dt, by simp [check_string_cols, hs, hdt]⟩

theorem lookup_state_params {K V S R : Type} [DecidableEq K]
    (self : BucketAggregator K V S R) (ks : List K) :
    (self.lookup_state ks).2.params = self.params := by
  suffices h : ∀ acc : List Nat × BucketAggregator K V S R,
      (ks.foldl lookup_step acc).2.params = acc.2.params by
    exact h ([], self)
  induction ks with
  | nil => intro acc; rfl
  | cons k ks ih =>
    intro acc
    rw [List.foldl_cons, ih (lookup_step acc k), lookup_step_params acc k]

theorem chunk_col_get? {K V R : Type} (c : Chunk K V R) (n : Nat)
    (hnlt : n < c.columns.length) :
    ∃ col, c.columns.get? n = some col ∧ chunk_col c n = col.1 := by
  cases hx : c.columns.get? n with
  | none =>
    rw [List.get?_eq_none] at hx
    omega
  | some col =>
    refine ⟨col, rfl, ?_⟩
    simp only [chunk_col, List.getD_eq_getElem?_getD, ← List.get?_eq_getElem?, hx,
      Option.getD_some]

theorem merge_agg_core_params {K V S R : Type} [DecidableEq K] [Inhabited S] [Inhabited V]
    (self : BucketAggregator K V S R) (ks : List K) (scols : List (List V)) :
    (merge_agg_core self ks scols).params = self.params := by
  simp only [merge_agg_core]
  cases htp : (self.lookup_state ks).2.temp_place with
  | none => exact lookup_state_params self ks
  | some temp => exact lookup_state_params self ks

theorem merge_one_agg_eq {K V S R : Type} [DecidableEq K] [Inhabited S] [Inhabited V]
    (self : BucketAggregator K V S R) (c : Chunk K V R) {col : ColumnData K V R × DataType}
    {ks : List K}
    (hget : c.columns.get? self.params.aggregate_functions.length = some col)
    (hks : col.1 = ColumnData.keyCol ks) :
    self.merge_one true c =
      match check_string_cols c.columns self.params.aggregate_functions.length with
      | .error e => .error e
      | .ok scols => .ok (merge_agg_core self ks scols) := by
  simp only [BucketAggregator.merge_one, Chunk.convert_to_full, hget, hks]
  rfl

theorem merge_one_classify {K V S R : Type} [DecidableEq K] [Inhabited S] [Inhabited V]
    (self : BucketAggregator K V S R) (c : Chunk K V R)
    (hlen : self.params.aggregate_functions.length + 1 ≤ c.columns.length)
    (hkey : is_key_col (chunk_col c self.params.aggregate_functions.length) = true) :
    (∃ self2, self.merge_one true c = Except.ok self2 ∧ self2.params = self.params) ∨
    (∃ dt, self.merge_one true c = Except.error (ErrorCode.illegalDataType dt)) := by
  obtain ⟨col, hget, hcol⟩ := chunk_col_get? c self.params.aggregate_functions.length (by omega)
  obtain ⟨ks, hks⟩ := (is_key_col_iff _).mp (hcol ▸ hkey)
  rw [merge_one_agg_eq self c hget hks]
  rcases check_string_cols_classify (V := V) self.params.aggregate_functions.length c.columns
      (by omega) with ⟨scols, hok⟩ | ⟨dt, herr⟩
  · rw [hok]
    exact Or.inl ⟨_, rfl, merge_agg_core_params self ks scols⟩
  · rw [herr]
    exact Or.inr ⟨dt, rfl⟩

theorem merge_one_bad {K V S R : Type} [DecidableEq K] [Inhabited S] [Inhabited V]
    (self : BucketAggregator K V S R) (c : Chunk K V R)
    (hlen : self.params.aggregate_functions.length + 1 ≤ c.columns.length)
    (hkey : is_key_col (chunk_col c self.params.aggregate_functions.length) = true)
    (hbad : ∃ i, i < self.params.aggregate_functions.length ∧
      (chunk_col c i).as_string = none) :
    ∃ dt, self.merge_one true c = Except.error (ErrorCode.illegalDataType dt) := by
  obtain ⟨col, hget, hcol⟩ := chunk_col_get? c self.params.aggregate_functions.length (by omega)
  obtain ⟨ks, hks⟩ := (is_key_col_iff _).mp (hcol ▸ hkey)
  obtain ⟨dt, herr⟩ := check_string_cols_bad (V := V)
    self.params.aggregate_functions.length c.columns (by omega)
    (by
      obtain ⟨i, hi, hb⟩ := hbad
      refine ⟨i, hi, ?_⟩
      simpa [chunk_col] using hb)
  rw [merge_one_agg_eq self c hget hks, herr]
  exact ⟨dt, rfl⟩

theorem merge_all_bad {K V S R : Type} [DecidableEq K] [Inhabited S] [Inhabited V] :
    ∀ (chunks : List (Chunk K V R)) (self : BucketAggregator K V S R),
      (∀ c ∈ chunks, self.params.aggregate_functions.length + 1 ≤ c.columns.length) →
      (∀ c ∈ chunks, is_key_col (chunk_col c self.params.aggregate_functions.length) = true) →
      (∃ c ∈ chunks, ∃ i, i < self.params.aggregate_functions.length ∧
        (chunk_col c i).as_string = none) →
      ∃ dt, BucketAggregator.merge_all true self chunks =
        Except.error (ErrorCode.illegalDataType dt)
  | [], _, _, _, hbad => by simp at hbad
  | c :: rest, self, hlen, hkey, hbad => by
    rcases merge_one_classify self c (hlen c (by simp)) (hkey c (by simp)) with
      ⟨self2, hok, hparams⟩ | ⟨dt, herr⟩
    · rcases hbad with ⟨cb, hcb, i, hi, hb⟩
      rcases List.mem_cons.mp hcb with rfl | hcbrest
      · obtain ⟨dt, hdt⟩ := merge_one_bad self cb (hlen cb (by simp)) (hkey cb (by simp))
          ⟨i, hi, hb⟩
        rw [hok] at hdt
        cases hdt
      · obtain ⟨dt, hdt⟩ := merge_all_bad rest self2
          (fun cc hcc => hparams ▸ hlen cc (List.mem_cons_of_mem _ hcc))
          (fun cc hcc => hparams ▸ hkey cc (List.mem_cons_of_mem _ hcc))
          ⟨cb, hcbrest, i, hparams ▸ hi, hb⟩
        exact ⟨dt, by simp [BucketAggregator.merge_all, hok, hdt]⟩
    · exact ⟨dt, by simp [BucketAggregator.merge_all, herr]⟩

/-- C6: in with-aggregates mode, if any of the first `aggregate_function_len`
columns of some input chunk does not carry byte-string elements, `merge_chunks`
fails with an `IllegalDataType` error propagated to the caller. -/
theorem merge_chunks_illegal_data_type {K V S R : Type} [DecidableEq K] [Inhabited S] [Inhabited V]
    (params : AggregatorParams V S R) (chunks : List (Chunk K V R))
    (hlen : ∀ c ∈ chunks, params.aggregate_functions.length + 1 ≤ c.columns.length)
    (hkey : ∀ c ∈ chunks, is_key_col (chunk_col c params.aggregate_functions.length) = true)
    (hbad : ∃ c ∈ chunks, ∃ i, i < params.aggregate_functions.length ∧
      (chunk_col c i).as_string = none) :
    ∃ dt, BucketAggregator.merge_chunks (K := K) true (BucketAggregator.create params) chunks =
      Except.error (ErrorCode.illegalDataType dt) := by
  have hp := (create_hash_table_params (K := K) params).2
  obtain ⟨dt, hdt⟩ := merge_all_bad chunks (BucketAggregator.create (K := K) params)
    (by rw [hp]; exact hlen) (by rw [hp]; exact hkey) (by rw [hp]; exact hbad)
  exact ⟨dt, by simp [BucketAggregator.merge_chunks, hdt]⟩

/-- C6 witness: a chunk whose only state column is an integer column makes
`merge_chunks` fail with `IllegalDataType`. -/
theorem merge_chunks_illegal_data_type_witness :
    ∃ dt, BucketAggregator.merge_chunks (K := Nat) true
        (BucketAggregator.create sumParams) [chunkBad] =
      Except.error (ErrorCode.illegalDataType dt) :=
  merge_chunks_illegal_data_type sumParams [chunkBad] (by decide) (by decide)
    ⟨chunkBad, by decide, 0, by decide, by decide⟩

/-! ## C4: one address per row, stable across calls -/

theorem lookup_step_present {K V S R : Type} [DecidableEq K]
    (ps : List Nat) (ba : BucketAggregator K V S R) (k : K) {addr : Nat}
    (hfind : assocFind ba.hash_table k = some addr) :
    lookup_step (ps, ba) k = (ps ++ [addr], ba) := by
  simp [lookup_step, hfind]

theorem lookup_step_insert {K V S R : Type} [DecidableEq K]
    (ps : List Nat) (ba : BucketAggregator K V S R) (k : K)
    (hfind : assocFind ba.hash_table k = none)
    (hfns : ba.params.aggregate_functions ≠ []) :
    lookup_step (ps, ba) k =
      (ps ++ [ba.area.blocks.length],
        { ba with
          area := ⟨ba.area.blocks ++ [ba.params.aggregate_functions.map (·.init_state)]⟩,
          hash_table := ba.hash_table ++ [(k, ba.area.blocks.length)] }) := by
  have hne : ba.params.aggregate_functions.isEmpty = false := by
    cases h : ba.params.aggregate_functions with
    | nil => exact absurd h hfns
    | cons a l => simp
  simp [lookup_step, hfind, AggregatorParams.alloc_layout, hne]

theorem lookup_state_spec {K V S R : Type} [DecidableEq K] [Inhabited K] :
    ∀ (ks : List K) (ba : BucketAggregator K V S R),
    ba.params.aggregate_functions ≠ [] →
    (ba.lookup_state ks).1.length = ks.length ∧
    (∀ j, j < ks.length →
      assocFind (ba.lookup_state ks).2.hash_table (ks.getD j default) =
        some ((ba.lookup_state ks).1.getD j 0)) ∧
    (∀ k a, assocFind ba.hash_table k = some a →
      assocFind (ba.lookup_state ks).2.hash_table k = some a)
  | [], ba, _ => by
    refine ⟨rfl, ?_, ?_⟩
    · intro j hj; exact absurd hj (by simp)
    · intro k a h; exact h
  | k :: ks, ba, hfns => by
    unfold BucketAggregator.lookup_state
    rw [List.foldl_cons]
    cases hfind : assocFind ba.hash_table k with
    | some addr =>
      rw [lookup_step_present [] ba k hfind, lookup_foldl_shift]
      obtain ⟨ihlen, ihrow, ihmono⟩ := lookup_state_spec ks ba hfns
      unfold BucketAggregator.lookup_state at ihlen ihrow ihmono
      refine ⟨by simpa using ihlen, ?_, ?_⟩
      · intro j hj
        cases j with
        | zero => simpa using ihmono k addr hfind
        | succ i =>
          have hi : i < ks.length := by simpa using hj
          simpa using ihrow i hi
      · intro k2 a h
        exact ihmono k2 a h
    | none =>
      rw [lookup_step_insert [] ba k hfind hfns]
      rw [lookup_foldl_shift]
      obtain ⟨ihlen, ihrow, ihmono⟩ := lookup_state_spec ks
        { ba with
          area := ⟨ba.area.blocks ++ [ba.params.aggregate_functions.map (·.init_state)]⟩,
          hash_table := ba.hash_table ++ [(k, ba.area.blocks.length)] } hfns
      unfold BucketAggregator.lookup_state at ihlen ihrow ihmono
      have hk2 : assocFind
          (ba.hash_table ++ [(k, ba.area.blocks.length)]) k =
          some ba.area.blocks.length := by
        rw [assocFind_append_none _ hfind]
        simp [assocFind]
      refine ⟨by simpa using ihlen, ?_, ?_⟩
      · intro j hj
        cases j with
        | zero => simpa using ihmono k ba.area.blocks.length hk2
        | succ i =>
          have hi : i < ks.length := by simpa using hj
          simpa using ihrow i hi
      · intro k2 a h
        exact ihmono k2 a (assocFind_append_some _ h)

theorem lookup_runs_spec {K V S R : Type} [DecidableEq K] [Inhabited K] :
    ∀ (keyss : List (List K)) (ba : BucketAggregator K V S R),
    ba.params.aggregate_functions ≠ [] →
    (lookup_runs ba keyss).1.params = ba.params ∧
    (lookup_runs ba keyss).2.length = keyss.length ∧
    (∀ k a, assocFind ba.hash_table k = some a →
      assocFind (lookup_runs ba keyss).1.hash_table k = some a) ∧
    (∀ i, i < keyss.length →
      ((lookup_runs ba keyss).2.getD i []).length = (keyss.getD i []).length) ∧
    (∀ i, i < keyss.length → ∀ j, j < (keyss.getD i []).length →
      assocFind (lookup_runs ba keyss).1.hash_table ((keyss.getD i []).getD j default) =
        some (((lookup_runs ba keyss).2.getD i []).getD j 0))
  | [], ba, _ => by
    refine ⟨rfl, rfl, fun k a h => h, ?_, ?_⟩
    · intro i hi; exact absurd hi (by simp)
    · intro i hi; exact absurd hi (by simp)
  | ks :: rest, ba, hfns => by
    obtain ⟨clen, crow, cmono⟩ := lookup_state_spec ks ba hfns
    have hparams : (ba.lookup_state ks).2.params = ba.params := lookup_state_params ba ks
    obtain ⟨rparams, rlen, rmono, rlens, rrows⟩ :=
      lookup_runs_spec rest (ba.lookup_state ks).2 (by rw [hparams]; exact hfns)
    simp only [lookup_runs]
    refine ⟨?_, ?_, ?_, ?_, ?_⟩
    · rw [rparams, hparams]
    · simpa using rlen
    · intro k a h
      exact rmono k a (cmono k a h)
    · intro i hi
      cases i with
      | zero => simpa using clen
      | succ i2 =>
        have hi2 : i2 < rest.length := by simpa using hi
        simpa using rlens i2 hi2
    · intro i hi j hj
      cases i with
      | zero =>
        have hj2 : j < ks.length := by simpa using hj
        have h1 := crow j hj2
        have h2 := rmono _ _ h1
        simpa using h2
      | succ i2 =>
        have hi2 : i2 < rest.length := by simpa using hi
        have hj2 : j < (rest.getD i2 []).length := by simpa using hj
        simpa using rrows i2 hi2 j hj2

/-- C4: for an aggregator configured with at least one aggregate function,
every `lookup_state` call returns exactly one state base address per row, in
row order; and across all `lookup_state` calls on the same aggregator, any two
rows with equal keys receive the same address. -/
theorem lookup_state_rows_stable {K V S R : Type} [DecidableEq K] [Inhabited K]
    (params : AggregatorParams V S R) (hfns : params.aggregate_functions ≠ [])
    (keyss : List (List K)) :
    (lookup_runs (BucketAggregator.create (K := K) params) keyss).2.length = keyss.length ∧
    (∀ i, i < keyss.length →
      ((lookup_runs (BucketAggregator.create (K := K) params) keyss).2.getD i []).length =
        (keyss.getD i []).length) ∧
    (∀ i j i2 j2, i < keyss.length → j < (keyss.getD i []).length →
      i2 < keyss.length → j2 < (keyss.getD i2 []).length →
      (keyss.getD i []).getD j default = (keyss.getD i2 []).getD j2 default →
      (((lookup_runs (BucketAggregator.create (K := K) params) keyss).2.getD i []).getD j 0 =
        ((lookup_runs (BucketAggregator.create (K := K) params) keyss).2.getD i2 []).getD j2 0)) := by
  obtain ⟨_, hlen, _, hlens, hrows⟩ := lookup_runs_spec keyss
    (BucketAggregator.create (K := K) params)
    (by rw [(create_hash_table_params (K := K) params).2]; exact hfns)
  refine ⟨hlen, hlens, ?_⟩
  intro i j i2 j2 hi hj hi2 hj2 heq
  have h1 := hrows i hi j hj
  have h2 := hrows i2 hi2 j2 hj2
  rw [heq] at h1
  rw [h1] at h2
  exact Option.some.inj h2

/-- C4 witness: two calls on an aggregator with one SUM function return one
address per row. -/
theorem lookup_state_rows_stable_witness :
    (lookup_runs (BucketAggregator.create (K := Nat) sumParams) [[1, 1, 2], [2, 1]]).2.length =
      ([[1, 1, 2], [2, 1]] : List (List Nat)).length :=
  (lookup_state_rows_stable sumParams (by simp [sumParams]) [[1, 1, 2], [2, 1]]).1

/-! ## C5: the drop sequence -/

theorem zip_map_fst_snd {A B : Type} :
    ∀ l : List (A × B), (l.map Prod.fst).zip (l.map Prod.snd) = l
  | [] => rfl
  | p :: rest => by simp [zip_map_fst_snd rest]

theorem zip_map_snd_fst {A B : Type} :
    ∀ l : List (A × B), (l.map Prod.snd).zip (l.map Prod.fst) = l.map (fun p => (p.2, p.1))
  | [] => rfl
  | p :: rest => by simp [zip_map_snd_fst rest]

theorem filter_of_map {A B : Type} (f : A → B) (p : B → Bool) :
    ∀ l : List A, (l.map f).filter p = (l.filter (fun a => p (f a))).map f
  | [] => rfl
  | a :: rest => by
    by_cases h : p (f a) = true
    · simp [h, filter_of_map f p rest]
    · simp only [List.map_cons, List.filter_cons]
      rw [if_neg (by simpa using h), if_neg (by simpa using h)]
      exact filter_of_map f p rest

theorem manual_filter_fst {V S R : Type} :
    ∀ (fns : List (AggregateFunction V S R)) (offs : List Nat),
      fns.length = offs.length →
      fns.filter (·.need_manual_drop_state) =
        ((fns.zip offs).filter (fun p => p.1.need_manual_drop_state)).map Prod.fst
  | [], [], _ => rfl
  | f :: fns, o :: offs, h => by
    have ih := manual_filter_fst fns offs (by simpa using h)
    by_cases hm : f.need_manual_drop_state = true
    · simp only [List.zip_cons_cons, List.filter_cons, hm, if_pos, List.map_cons]
      simp [ih]
    · simp only [List.zip_cons_cons, List.filter_cons]
      rw [if_neg (by simpa using hm), if_neg (by simpa using hm)]
      exact ih
  | [], o :: offs, h => by simp at h
  | f :: fns, [], h => by simp at h

theorem manual_filter_snd {V S R : Type} :
    ∀ (offs : List Nat) (i : Nat) (fns : List (AggregateFunction V S R))
      (fnsFull : List (AggregateFunction V S R)),
      (∀ j, fns.get? j = fnsFull.get? (i + j)) →
      fns.length = offs.length →
      ((offs.enumFrom i).filter
          (fun io => ((fnsFull.get? io.1).map (·.need_manual_drop_state)).getD false)).map
        (·.2) =
      ((fns.zip offs).filter (fun p => p.1.need_manual_drop_state)).map Prod.snd
  | [], i, fns, fnsFull, _, h => by
    have : fns = [] := List.length_eq_zero.mp (by simpa using h)
    subst this; rfl
  | o :: offs, i, [], fnsFull, _, h => by simp at h
  | o :: offs, i, f :: fns, fnsFull, hcorr, h => by
    have hhead : fnsFull.get? i = some f := by
      have h0 := hcorr 0
      rw [List.get?_cons_zero, Nat.add_zero] at h0
      exact h0.symm
    have ih := manual_filter_snd offs (i + 1) fns fnsFull
      (fun j => by
        have h2 := hcorr (j + 1)
        rw [List.get?_cons_succ] at h2
        rw [h2]
        congr 1
        omega)
      (by simpa using h)
    rw [List.enumFrom_cons, List.zip_cons_cons, List.filter_cons, List.filter_cons]
    by_cases hm : f.need_manual_drop_state = true
    · rw [if_pos ?hc1, if_pos ?hc2]
      case hc1 =>
        show ((fnsFull.get? i).map (fun x => x.need_manual_drop_state)).getD false = true
        rw [hhead]
        exact hm
      case hc2 =>
        show f.need_manual_drop_state = true
        exact hm
      rw [List.map_cons, List.map_cons, ih]
    · rw [if_neg ?hc3, if_neg ?hc4]
      case hc3 =>
        show ¬ (((fnsFull.get? i).map (fun x => x.need_manual_drop_state)).getD false = true)
        rw [hhead]
        simpa using hm
      case hc4 =>
        show ¬ (f.need_manual_drop_state = true)
        simpa using hm
      exact ih

theorem getD_mem_of_lt {A : Type} (l : List A) (i : Nat) (d : A) (h : i < l.length) :
    l.getD i d ∈ l := by
  rw [List.getD_eq_getElem l d h]
  exact List.getElem_mem h

theorem zip_filter_offset_absent {V S R : Type} (o : Nat) :
    ∀ (fns : List (AggregateFunction V S R)) (offs : List Nat), o ∉ offs →
      (fns.zip offs).filter (fun p => decide (p.2 = o)) = []
  | [], _, _ => by simp
  | f :: fns, [], _ => by simp
  | f :: fns, o2 :: offs, h => by
    have h1 : o2 ≠ o := fun hh => h (hh ▸ List.mem_cons_self o2 offs)
    simp only [List.zip_cons_cons, List.filter_cons]
    rw [if_neg (by simpa using h1)]
    exact zip_filter_offset_absent o fns offs (fun hh => h (List.mem_cons_of_mem _ hh))

theorem zip_filter_offset_eq {V S R : Type} :
    ∀ (fns : List (AggregateFunction V S R)) (offs : List Nat) (idx : Nat)
      (hidx : idx < fns.length),
      offs.Nodup → fns.length = offs.length →
      (fns.zip offs).filter (fun p => decide (p.2 = offs.getD idx 0)) =
        [(fns.get ⟨idx, hidx⟩, offs.getD idx 0)]
  | [], _, idx, hidx, _, _ => absurd hidx (by simp)
  | f :: fns, [], idx, hidx, _, h => by simp at h
  | f :: fns, o :: offs, 0, hidx, hnodup, h => by
    simp only [List.zip_cons_cons, List.filter_cons, List.getD_cons_zero]
    rw [if_pos (by simp)]
    rw [zip_filter_offset_absent o fns offs (by simpa using (List.nodup_cons.mp hnodup).1)]
    rfl
  | f :: fns, o :: offs, idx + 1, hidx, hnodup, h => by
    have hidx2 : idx < fns.length := by simpa using hidx
    have hlt : idx < offs.length := by
      have := h
      simp at this
      omega
    have hmem : offs.getD idx 0 ∈ offs := getD_mem_of_lt offs idx 0 hlt
    have hne : o ≠ offs.getD idx 0 := by
      intro hh
      exact (List.nodup_cons.mp hnodup).1 (hh ▸ hmem)
    simp only [List.zip_cons_cons, List.filter_cons, List.getD_cons_succ]
    rw [if_neg (by simpa using hne)]
    exact zip_filter_offset_eq fns offs idx hidx2 (List.nodup_cons.mp hnodup).2
      (by simpa using h)

theorem flatMap_singleton_map {A B : Type} (f : A → B) :
    ∀ l : List A, (l.flatMap (fun a => [f a])) = l.map f
  | [] => rfl
  | a :: rest => by simp [flatMap_singleton_map f rest]

theorem filter_flatMap_comm {A B : Type} (g : A → List B) (p : B → Bool) :
    ∀ l : List A, (l.flatMap g).filter p = l.flatMap (fun a => (g a).filter p)
  | [] => rfl
  | a :: rest => by
    simp only [List.flatMap_cons, List.filter_append]
    rw [filter_flatMap_comm g p rest]

theorem flatMap_nil_const {A B : Type} : ∀ l : List A,
    (l.flatMap (fun _ => ([] : List B))) = []
  | [] => rfl
  | a :: rest => by simp [flatMap_nil_const rest]

theorem map_const_fst_filter {A : Type} (Z : List (A × Nat)) (t O : Nat) :
    (Z.map (fun p => (t, p.2))).filter (fun q => decide (q.2 = O)) =
    (Z.filter (fun p => decide (p.2 = O))).map (fun p => (t, p.2)) := by
  rw [filter_of_map]

theorem map_swap_then_fst {A : Type} (Z : List (A × Nat)) (t : Nat) :
    (Z.map (fun p => (p.2, p.1))).map (fun of => (t, of.1)) = Z.map (fun p => (t, p.2)) := by
  rw [List.map_map]
  rfl

/-- C5: when a bucket aggregator is dropped, every aggregate function whose
`need_manual_drop_state()` is true receives, at its state offset, exactly one
`drop_state` call per hash-table entry (one per entry, in table order)
followed by exactly one call on the scratch state when a scratch state exists
— so every hash-table state is dropped before the scratch state; functions
whose `need_manual_drop_state()` is false receive no `drop_state` calls. -/
theorem drop_trace_spec {K V S R : Type} (ba : BucketAggregator K V S R)
    (hnodup : ba.params.offsets_aggregate_states.Nodup)
    (hlen : ba.params.offsets_aggregate_states.length = ba.params.aggregate_functions.length)
    (idx : Nat) (hidx : idx < ba.params.aggregate_functions.length) :
    ba.drop_trace.filter
        (fun p => decide (p.2 = ba.params.offsets_aggregate_states.getD idx 0)) =
      if (ba.params.aggregate_functions.get ⟨idx, hidx⟩).need_manual_drop_state then
        ba.hash_table.map (fun e => (e.2, ba.params.offsets_aggregate_states.getD idx 0)) ++
          (match ba.temp_place with
           | some t => [(t, ba.params.offsets_aggregate_states.getD idx 0)]
           | none => [])
      else [] := by
  obtain ⟨area, params, table, tp⟩ := ba
  obtain ⟨fns, offs, fields⟩ := params
  simp only [BucketAggregator.drop_trace] at hnodup hlen hidx ⊢
  have hzip : (fns.filter (·.need_manual_drop_state)).zip
      ((offs.enum.filter
          (fun io => ((fns.get? io.1).map (·.need_manual_drop_state)).getD false)).map (·.2)) =
      (fns.zip offs).filter (fun p => p.1.need_manual_drop_state) := by
    rw [manual_filter_fst fns offs hlen.symm]
    rw [show offs.enum = offs.enumFrom 0 from rfl]
    rw [manual_filter_snd offs 0 fns fns (fun j => by rw [Nat.zero_add]) hlen.symm]
    exact zip_map_fst_snd _
  have hswap : ((offs.enum.filter
          (fun io => ((fns.get? io.1).map (·.need_manual_drop_state)).getD false)).map (·.2)).zip
      (fns.filter (·.need_manual_drop_state)) =
      ((fns.zip offs).filter (fun p => p.1.need_manual_drop_state)).map (fun p => (p.2, p.1)) := by
    rw [manual_filter_fst fns offs hlen.symm]
    rw [show offs.enum = offs.enumFrom 0 from rfl]
    rw [manual_filter_snd offs 0 fns fns (fun j => by rw [Nat.zero_add]) hlen.symm]
    exact zip_map_snd_fst _
  have hfZ : ((fns.zip offs).filter (fun p => p.1.need_manual_drop_state)).filter
      (fun p => decide (p.2 = offs.getD idx 0)) =
      if (fns.get ⟨idx, hidx⟩).need_manual_drop_state then
        [(fns.get ⟨idx, hidx⟩, offs.getD idx 0)] else [] := by
    rw [List.filter_filter]
    rw [List.filter_congr
      (fun a _ => Bool.and_comm (decide (a.2 = offs.getD idx 0)) a.1.need_manual_drop_state)]
    rw [← List.filter_filter]
    rw [zip_filter_offset_eq fns offs idx hidx hnodup hlen.symm]
    by_cases hm : (fns.get ⟨idx, hidx⟩).need_manual_drop_state = true
    · rw [if_pos hm]
      have hm2 : fns[idx].need_manual_drop_state = true := hm
      simp [List.filter_cons, hm2]
    · rw [if_neg hm]
      simp only [Bool.not_eq_true] at hm
      have hm2 : fns[idx].need_manual_drop_state = false := hm
      simp [List.filter_cons, hm2]
  rw [hzip, hswap, List.filter_append]
  rw [filter_flatMap_comm]
  have hinner : ∀ e : K × Nat,
      ((((fns.zip offs).filter (fun p => p.1.need_manual_drop_state)).map
          (fun fo => (e.2, fo.2))).filter
        (fun p => decide (p.2 = offs.getD idx 0))) =
      (((fns.zip offs).filter (fun p => p.1.need_manual_drop_state)).filter
          (fun p => decide (p.2 = offs.getD idx 0))).map (fun p => (e.2, p.2)) :=
    fun e => map_const_fst_filter _ e.2 _
  simp only [hinner, hfZ]
  by_cases hm : (fns.get ⟨idx, hidx⟩).need_manual_drop_state = true
  · simp only [if_pos hm]
    have htab : table.flatMap
        (fun e => ([((fns.get ⟨idx, hidx⟩ : AggregateFunction V S R), offs.getD idx 0)].map
          (fun p => (e.2, p.2)))) =
        table.map (fun e => (e.2, offs.getD idx 0)) :=
      flatMap_singleton_map _ table
    rw [htab]
    congr 1
    cases tp with
    | none => rfl
    | some t =>
      dsimp only
      rw [map_swap_then_fst, map_const_fst_filter _ t _, hfZ, if_pos hm]
      rfl
  · simp only [if_neg hm]
    simp only [List.map_nil]
    rw [flatMap_nil_const, List.nil_append]
    cases tp with
    | none => rfl
    | some t =>
      dsimp only
      rw [map_swap_then_fst, map_const_fst_filter _ t _, hfZ, if_neg hm]
      rfl

/-- C5 witness: on a concrete aggregator with one manual-drop SUM function,
one table entry and a scratch state, the trace at offset 0 is the table call
followed by the scratch call. -/
theorem drop_trace_spec_witness :
    dropBA.drop_trace.filter
        (fun p => decide (p.2 = dropBA.params.offsets_aggregate_states.getD 0 0)) =
      if (dropBA.params.aggregate_functions.get ⟨0, by decide⟩).need_manual_drop_state then
        dropBA.hash_table.map
            (fun e => (e.2, dropBA.params.offsets_aggregate_states.getD 0 0)) ++
          (match dropBA.temp_place with
           | some t => [(t, dropBA.params.offsets_aggregate_states.getD 0 0)]
           | none => [])
      else [] :=
  drop_trace_spec dropBA (by decide) (by decide) 0 (by decide)

/-! ## C7: key-only mode builds the set union of keys -/

theorem merge_one_key_only_eq {K V S R : Type} [DecidableEq K] [Inhabited S] [Inhabited V]
    (self : BucketAggregator K V S R) (c : Chunk K V R)
    {col : ColumnData K V R × DataType} {ks : List K}
    (hget : c.columns.get? self.params.aggregate_functions.length = some col)
    (hks : col.1 = ColumnData.keyCol ks) :
    self.merge_one false c = Except.ok { self with hash_table :=
      (ks.foldl (fun t k => if (assocFind t k).isSome then t else t ++ [(k, 0)])
        self.hash_table) } := by
  simp only [BucketAggregator.merge_one, Chunk.convert_to_full, hget, hks]
  rfl

theorem insert_fold_nodup {K : Type} [DecidableEq K] :
    ∀ (ks : List K) (t : List (K × Nat)), (t.map (·.1)).Nodup →
      ((ks.foldl (fun t k => if (assocFind t k).isSome then t else t ++ [(k, 0)]) t).map
        (·.1)).Nodup
  | [], t, h => h
  | k :: ks, t, h => by
    rw [List.foldl_cons]
    by_cases hf : (assocFind t k).isSome = true
    case pos =>
      rw [if_pos hf]
      exact insert_fold_nodup ks t h
    case neg =>
      rw [if_neg hf]
      refine insert_fold_nodup ks (t ++ [(k, 0)]) ?_
      rw [List.map_append]
      simp only [List.map_cons, List.map_nil]
      rw [List.nodup_append]
      refine ⟨h, List.nodup_singleton k, ?_⟩
      intro a ha hb
      have : a = k := by simpa using hb
      subst this
      exact hf (assocFind_isSome_iff.mpr ha)

theorem insert_fold_mem {K : Type} [DecidableEq K] :
    ∀ (ks : List K) (t : List (K × Nat)) (k2 : K),
      (k2 ∈ (ks.foldl (fun t k => if (assocFind t k).isSome then t else t ++ [(k, 0)]) t).map
        (·.1)) ↔ (k2 ∈ t.map (·.1) ∨ k2 ∈ ks)
  | [], t, k2 => by simp
  | k :: ks, t, k2 => by
    rw [List.foldl_cons]
    by_cases hf : (assocFind t k).isSome = true
    case pos =>
      rw [if_pos hf]
      rw [insert_fold_mem ks t k2]
      have hk : k ∈ t.map (·.1) := assocFind_isSome_iff.mp hf
      simp only [List.mem_cons]
      constructor
      · tauto
      · rintro (h | rfl | h)
        · exact Or.inl h
        · exact Or.inl hk
        · exact Or.inr h
    case neg =>
      rw [if_neg hf]
      rw [insert_fold_mem ks (t ++ [(k, 0)]) k2]
      rw [List.map_append]
      simp only [List.mem_append, List.map_cons, List.map_nil, List.mem_singleton,
        List.mem_cons]
      tauto

theorem merge_all_key_only {K V S R : Type} [DecidableEq K] [Inhabited S] [Inhabited V] :
    ∀ (chunks : List (Chunk K V R)) (self : BucketAggregator K V S R),
      (∀ c ∈ chunks, self.params.aggregate_functions.length < c.columns.length ∧
        is_key_col (chunk_col c self.params.aggregate_functions.length) = true) →
      ∃ self2, BucketAggregator.merge_all false self chunks = Except.ok self2 ∧
        self2.params = self.params ∧
        ((self.hash_table.map (·.1)).Nodup → (self2.hash_table.map (·.1)).Nodup) ∧
        (∀ k, k ∈ self2.hash_table.map (·.1) ↔ (k ∈ self.hash_table.map (·.1) ∨
          ∃ c ∈ chunks, k ∈ chunk_keys self.params.aggregate_functions.length c))
  | [], self, _ => ⟨self, rfl, rfl, fun h => h, by simp⟩
  | c :: chunks, self, hwf => by
    obtain ⟨hlen, hkey⟩ := hwf c (List.mem_cons_self _ _)
    obtain ⟨col, hget, hcol⟩ := chunk_col_get? c self.params.aggregate_functions.length hlen
    obtain ⟨ks, hks⟩ := (is_key_col_iff _).mp (hcol ▸ hkey)
    have hone := merge_one_key_only_eq self c hget hks
    have hkeys : chunk_keys self.params.aggregate_functions.length c = ks := by
      rw [chunk_keys, hcol, hks]
    obtain ⟨self2, hall, hparams, hnd, hmem⟩ := merge_all_key_only chunks
      { self with hash_table :=
          (ks.foldl (fun t k => if (assocFind t k).isSome then t else t ++ [(k, 0)])
            self.hash_table) }
      (fun c2 hc2 => hwf c2 (List.mem_cons_of_mem _ hc2))
    refine ⟨self2, ?_, hparams, ?_, ?_⟩
    · simp only [BucketAggregator.merge_all, hone, hall]
    · intro h
      exact hnd (insert_fold_nodup ks self.hash_table h)
    · intro k
      rw [hmem k]
      dsimp only
      rw [insert_fold_mem ks self.hash_table k]
      constructor
      · rintro ((h | h) | ⟨c2, hc2, h⟩)
        · exact Or.inl h
        · exact Or.inr ⟨c, List.mem_cons_self _ _, hkeys ▸ h⟩
        · exact Or.inr ⟨c2, List.mem_cons_of_mem _ hc2, h⟩
      · rintro (h | ⟨c2, hc2, h⟩)
        · exact Or.inl (Or.inl h)
        · rcases List.mem_cons.mp hc2 with rfl | hc3
          · exact Or.inl (Or.inr (hkeys ▸ h))
          · exact Or.inr ⟨c2, hc3, h⟩

/-- C7: in key-only mode, for every list of input chunks `merge_chunks` emits
one chunk whose group-key column holds exactly the set union of the per-row
keys of all input chunks — each distinct key exactly once, so inserting a
duplicate key changes nothing. -/
theorem merge_chunks_key_only_set_union {K V S R : Type} [DecidableEq K]
    [Inhabited S] [Inhabited V]
    (params : AggregatorParams V S R) (hfns : params.aggregate_functions = [])
    (hschema : 1 ≤ params.output_schema_fields.length)
    (chunks : List (Chunk K V R))
    (hwf : ∀ c ∈ chunks, 0 < c.columns.length ∧ is_key_col (chunk_col c 0) = true) :
    ∃ ba2 ch ks,
      BucketAggregator.merge_chunks (K := K) false (BucketAggregator.create params) chunks =
        Except.ok (ba2, [ch]) ∧
      chunk_col ch 0 = ColumnData.keyCol ks ∧
      ks.Nodup ∧
      (∀ k, k ∈ ks ↔ ∃ c ∈ chunks, k ∈ chunk_keys 0 c) := by
  have hn : (BucketAggregator.create (K := K) params).params.aggregate_functions.length = 0 := by
    rw [(create_hash_table_params (K := K) params).2, hfns]
    rfl
  obtain ⟨ba2, hall, hparams, hnd, hmem⟩ :=
    merge_all_key_only chunks (BucketAggregator.create (K := K) params)
      (fun c hc => by rw [hn]; exact hwf c hc)
  have htab0 : (BucketAggregator.create (K := K) params).hash_table = [] :=
    (create_hash_table_params (K := K) params).1
  have hnd2 : (ba2.hash_table.map (·.1)).Nodup := by
    apply hnd
    rw [htab0]
    exact List.nodup_nil
  have hfields : ba2.params.output_schema_fields = params.output_schema_fields := by
    rw [hparams, (create_hash_table_params (K := K) params).2]
  obtain ⟨f, rest, hfr⟩ : ∃ f rest, params.output_schema_fields = f :: rest := by
    cases hx : params.output_schema_fields with
    | nil => rw [hx] at hschema; simp at hschema
    | cons f rest => exact ⟨f, rest, rfl⟩
  refine ⟨ba2, ba2.finish false, ba2.hash_table.map (·.1), ?_, ?_, hnd2, ?_⟩
  · simp only [BucketAggregator.merge_chunks, hall]
  · simp only [BucketAggregator.finish, Bool.not_false, if_true, group_columns_of,
      hfields, hfr, List.zip_cons_cons, List.zip_nil_left, List.map_cons, List.map_nil]
    rfl
  · intro k
    rw [hmem k, htab0]
    simp only [List.map_nil, List.not_mem_nil, false_or]
    rw [hn]

/-- C7 witness: Scenario A — keys `[1,2,2,3]` and `[2,3,4]` dedup to the set
`{1,2,3,4}`. -/
theorem merge_chunks_key_only_set_union_witness :
    ∃ ba2 ch ks,
      BucketAggregator.merge_chunks (K := Nat) false (BucketAggregator.create keyOnlyParams)
          [chunkKA, chunkKB] = Except.ok (ba2, [ch]) ∧
      chunk_col ch 0 = ColumnData.keyCol ks ∧
      ks.Nodup ∧
      (∀ k, k ∈ ks ↔ ∃ c ∈ [chunkKA, chunkKB], k ∈ chunk_keys 0 c) :=
  merge_chunks_key_only_set_union keyOnlyParams rfl (by decide) [chunkKA, chunkKB] (by decide)

/-! ## C8: the emitted chunk matches the downstream contract -/

theorem zip_map_snd_take {A B : Type} :
    ∀ (l1 : List A) (l2 : List B), (l1.zip l2).map Prod.snd = l2.take l1.length
  | [], l2 => by simp
  | a :: l1, [] => by simp
  | a :: l1, b :: l2 => by
    simp only [List.zip_cons_cons, List.map_cons, List.length_cons, List.take_succ_cons]
    rw [zip_map_snd_take l1 l2]

theorem drop_of_length_succ {A : Type} (d : A) :
    ∀ (l : List A) (n : Nat), l.length = n + 1 → l.drop n = [l.getD n d]
  | [], n, h => by simp at h
  | a :: l, 0, h => by
    have : l = [] := List.length_eq_zero.mp (by simpa using h)
    subst this
    rfl
  | a :: l, n + 1, h => by
    rw [List.drop_succ_cons, List.getD_cons_succ]
    exact drop_of_length_succ d l n (by simpa using h)

theorem getD_enum_map {A B : Type} (g : Nat × A → B) (l : List A) (j : Nat)
    (hj : j < l.length) (d : B) :
    (l.enum.map g).getD j d = g (j, l.get ⟨j, hj⟩) := by
  have h1 : j < (l.enum.map g).length := by
    rw [List.length_map, List.enum_length]
    exact hj
  rw [List.getD_eq_getElem _ d h1]
  rw [List.getElem_map]
  rw [List.getElem_enum]
  rfl

theorem num_rows_foldl_const {A B : Type} (L : Nat) :
    ∀ (z : List (List A × B)) (a : Nat), (∀ cf ∈ z, cf.1.length = L) → z ≠ [] →
      z.foldl (fun _ cf => cf.1.length) a = L
  | [], _, _, hne => absurd rfl hne
  | [e], a, h, _ => by
    simp only [List.foldl_cons, List.foldl_nil]
    exact h e (by simp)
  | e :: e2 :: rest, a, h, _ => by
    rw [List.foldl_cons]
    exact num_rows_foldl_const L (e2 :: rest) e.1.length
      (fun cf hcf => h cf (List.mem_cons_of_mem _ hcf)) (by simp)

theorem merge_one_params {K V S R : Type} [DecidableEq K] [Inhabited S] [Inhabited V]
    (hasAgg : Bool) (self self2 : BucketAggregator K V S R) (c : Chunk K V R)
    (h : self.merge_one hasAgg c = Except.ok self2) : self2.params = self.params := by
  unfold BucketAggregator.merge_one at h
  simp only [Chunk.convert_to_full] at h
  cases hget : c.columns.get? self.params.aggregate_functions.length with
  | none => rw [hget] at h; simp at h
  | some col =>
    rw [hget] at h
    dsimp only at h
    cases hcol : col.1 with
    | keyCol ks =>
      rw [hcol] at h
      dsimp only at h
      cases hasAgg with
      | false =>
        simp only [Bool.not_false] at h
        rw [if_pos trivial] at h
        have h2 := Except.ok.inj h
        rw [← h2]
      | true =>
        simp only [Bool.not_true, Bool.false_eq_true, if_false] at h
        cases hcheck : check_string_cols (V := V) c.columns
            self.params.aggregate_functions.length with
        | error e => rw [hcheck] at h; simp at h
        | ok scols =>
          rw [hcheck] at h
          dsimp only at h
          have h2 := Except.ok.inj h
          rw [← h2]
          exact merge_agg_core_params self ks scols
    | stringCol vs => rw [hcol] at h; simp at h
    | intCol vs => rw [hcol] at h; simp at h
    | resultCol vs => rw [hcol] at h; simp at h

theorem merge_all_params {K V S R : Type} [DecidableEq K] [Inhabited S] [Inhabited V]
    (hasAgg : Bool) :
    ∀ (chunks : List (Chunk K V R)) (self self2 : BucketAggregator K V S R),
      BucketAggregator.merge_all hasAgg self chunks = Except.ok self2 →
      self2.params = self.params
  | [], self, self2, h => by
    cases h
    rfl
  | c :: chunks, self, self2, h => by
    unfold BucketAggregator.merge_all at h
    cases hone : self.merge_one hasAgg c with
    | error e => rw [hone] at h; cases h
    | ok self1 =>
      rw [hone] at h
      rw [merge_all_params hasAgg chunks self1 self2 h]
      exact merge_one_params hasAgg self self1 c hone

/-! ## C8: the emitted chunk matches the downstream contract -/

theorem zip_ne_nil {A B : Type} (l1 : List A) (l2 : List B)
    (h1 : l1 ≠ []) (h2 : l2 ≠ []) : l1.zip l2 ≠ [] := by
  cases l1 with
  | nil => exact absurd rfl h1
  | cons a l1 =>
    cases l2 with
    | nil => exact absurd rfl h2
    | cons b l2 => simp

theorem getD_append_lt {A : Type} :
    ∀ (l1 l2 : List A) (i : Nat) (d : A), i < l1.length →
      (l1 ++ l2).getD i d = l1.getD i d
  | [], _, i, _, h => absurd h (by simp)
  | a :: l1, l2, 0, d, _ => rfl
  | a :: l1, l2, i + 1, d, h => by
    simp only [List.cons_append, List.getD_cons_succ]
    exact getD_append_lt l1 l2 i d (by simpa using h)

theorem getD_append_length {A : Type} :
    ∀ (l1 l2 : List A) (d : A), (l1 ++ l2).getD l1.length d = l2.getD 0 d
  | [], l2, d => rfl
  | a :: l1, l2, d => by
    simp only [List.cons_append, List.length_cons, List.getD_cons_succ]
    exact getD_append_length l1 l2 d

theorem finish_key_only_spec {K V S R : Type} [Inhabited S]
    (ba : BucketAggregator K V S R)
    (hschema : ba.params.output_schema_fields.length = 1) :
    (ba.finish false).meta = none ∧
    (ba.finish false).num_rows = ba.hash_table.length ∧
    (ba.finish false).columns.map (·.2) = ba.params.output_schema_fields ∧
    chunk_col (ba.finish false) 0 = ColumnData.keyCol (ba.hash_table.map (·.1)) := by
  obtain ⟨f, hf⟩ : ∃ f, ba.params.output_schema_fields = [f] := by
    cases hx : ba.params.output_schema_fields with
    | nil => rw [hx] at hschema; simp at hschema
    | cons f rest =>
      rw [hx] at hschema
      have : rest = [] := List.length_eq_zero.mp (by simpa using hschema)
      exact ⟨f, by rw [this]⟩
  have hfin : ba.finish false = Chunk.mk
      [(ColumnData.keyCol (ba.hash_table.map (·.1)), f)]
      (ba.hash_table.map (·.1)).length none := by
    simp only [BucketAggregator.finish, Bool.not_false, if_true, group_columns_of, hf,
      List.zip_cons_cons, List.zip_nil_left, List.foldl_cons, List.foldl_nil, List.map_cons,
      List.map_nil]
  rw [hfin]
  refine ⟨rfl, by simp, by simp [hf], rfl⟩

theorem finish_agg_spec {K V S R : Type} [Inhabited S]
    (ba : BucketAggregator K V S R)
    (hfns : ba.params.aggregate_functions ≠ [])
    (hschema : ba.params.output_schema_fields.length =
      ba.params.aggregate_functions.length + 1) :
    (ba.finish true).meta = none ∧
    (ba.finish true).num_rows = ba.hash_table.length ∧
    (ba.finish true).columns.map (·.2) = ba.params.output_schema_fields ∧
    chunk_col (ba.finish true) ba.params.aggregate_functions.length =
      ColumnData.keyCol (ba.hash_table.map (·.1)) ∧
    (∀ idx (hidx : idx < ba.params.aggregate_functions.length),
      chunk_col (ba.finish true) idx = ColumnData.resultCol
        (ba.hash_table.map (fun e =>
          (ba.params.aggregate_functions.get ⟨idx, hidx⟩).merge_result
            (ba.area.read e.2 (ba.params.offsets_aggregate_states.getD idx 0))))) := by
  obtain ⟨area, params, table, tp⟩ := ba
  obtain ⟨fns, offs, fields⟩ := params
  simp only at hfns hschema
  simp only [BucketAggregator.finish, Bool.not_true, Bool.false_eq_true, if_false, chunk_col]
  have hn1 : 1 ≤ fns.length := by
    cases hx : fns with
    | nil => exact absurd hx hfns
    | cons g l => simp
  set AC := fns.enum.map (fun p => table.map (fun e : K × Nat =>
    p.2.merge_result (Area.read area e.2 (offs.getD p.1 0)))) with hAC
  set Z := AC.zip fields with hZ
  set AO := Z.map (fun cf => ((ColumnData.resultCol cf.1 : ColumnData K V R), cf.2)) with hAO
  have hACsize : AC.length = fns.length := by
    rw [hAC, List.length_map, List.enum_length]
  have hZlen : Z.length = fns.length := by
    rw [hZ, List.length_zip, hACsize, hschema]
    exact Nat.min_eq_left (by omega)
  have hAOlen : AO.length = fns.length := by
    rw [hAO, List.length_map]
    exact hZlen
  have hdrop : fields.drop AO.length = [fields.getD fns.length DataType.stringType] := by
    rw [hAOlen]
    exact drop_of_length_succ DataType.stringType fields fns.length hschema
  refine ⟨trivial, ?_, ?_, ?_, ?_⟩
  · show Z.foldl (fun x cf => cf.1.length) 0 = table.length
    apply num_rows_foldl_const
    · intro cf hcf
      rw [hZ] at hcf
      have h1 := (List.of_mem_zip hcf).1
      rw [hAC] at h1
      obtain ⟨p, hp, hcf1⟩ := List.mem_map.mp h1
      rw [← hcf1, List.length_map]
    · intro hznil
      rw [hznil] at hZlen
      simp at hZlen
      omega
  · rw [List.map_append]
    have h1 : AO.map (·.2) = fields.take fns.length := by
      rw [hAO]
      have h2 : (Z.map (fun cf => ((ColumnData.resultCol cf.1 : ColumnData K V R), cf.2))).map
          (fun x => x.2) = Z.map Prod.snd := by
        rw [List.map_map]
        rfl
      rw [h2, hZ, zip_map_snd_take, hACsize]
    have h3 : (((group_columns_of (table.map (·.1))).zip (fields.drop AO.length)).map
        (fun cf => ((ColumnData.keyCol cf.1 : ColumnData K V R), cf.2))).map (fun x => x.2) =
        fields.drop fns.length := by
      rw [hdrop, drop_of_length_succ DataType.stringType fields fns.length hschema]
      simp [group_columns_of]
    rw [h1, h3, List.take_append_drop]
  · rw [← hAOlen, getD_append_length]
    rw [hdrop]
    simp [group_columns_of]
  · intro idx hidx
    rw [getD_append_lt _ _ idx _ (by omega : idx < AO.length)]
    have hb : idx < AO.length := by omega
    rw [List.getD_eq_getElem _ _ hb]
    simp only [hAO, hZ, hAC, List.getElem_map, List.getElem_zip, List.getElem_enum]
    rfl

/-- C8: every successful `merge_chunks` call emits exactly one chunk: its
columns are the finalized aggregate-value columns followed by the
reconstructed group-key column, typed in the configured output schema's field
order (the configuration is preserved by the run); no chunk metadata is
attached; and its row count equals the hash table's size at finish. -/
theorem merge_chunks_output_contract {K V S R : Type} [DecidableEq K] [Inhabited S] [Inhabited V]
    (hasAgg : Bool) (ba0 : BucketAggregator K V S R) (chunks : List (Chunk K V R))
    (ba2 : BucketAggregator K V S R) (outs : List (Chunk K V R))
    (hrun : ba0.merge_chunks hasAgg chunks = Except.ok (ba2, outs))
    (hmode : hasAgg = true → ba0.params.aggregate_functions ≠ [])
    (hmode2 : hasAgg = false → ba0.params.aggregate_functions = [])
    (hschema : ba0.params.output_schema_fields.length =
      ba0.params.aggregate_functions.length + 1) :
    ∃ ch, outs = [ch] ∧ ba2.params = ba0.params ∧ ch.meta = none ∧
      ch.num_rows = ba2.hash_table.length ∧
      ch.columns.map (·.2) = ba2.params.output_schema_fields ∧
      chunk_col ch ba2.params.aggregate_functions.length =
        ColumnData.keyCol (ba2.hash_table.map (·.1)) ∧
      (∀ idx (hidx : idx < ba2.params.aggregate_functions.length),
        chunk_col ch idx = ColumnData.resultCol
          (ba2.hash_table.map (fun e =>
            (ba2.params.aggregate_functions.get ⟨idx, hidx⟩).merge_result
              (ba2.area.read e.2 (ba2.params.offsets_aggregate_states.getD idx 0))))) := by
  unfold BucketAggregator.merge_chunks at hrun
  cases hall : BucketAggregator.merge_all hasAgg ba0 chunks with
  | error e => rw [hall] at hrun; simp at hrun
  | ok ba1 =>
    rw [hall] at hrun
    dsimp only at hrun
    have hpair := Except.ok.inj hrun
    have hba : ba2 = ba1 := (congrArg Prod.fst hpair).symm
    subst hba
    have houts : outs = [ba2.finish hasAgg] := (congrArg Prod.snd hpair).symm
    have hparams : ba2.params = ba0.params := merge_all_params hasAgg chunks ba0 ba2 hall
    refine ⟨ba2.finish hasAgg, houts, hparams, ?_⟩
    cases hasAgg with
    | false =>
      have hfns0 : ba2.params.aggregate_functions = [] := by
        rw [hparams]
        exact hmode2 rfl
      have hlen0 : ba2.params.aggregate_functions.length = 0 := by
        rw [hfns0]
        rfl
      obtain ⟨hmeta, hrows, htypes, hkeycol⟩ := finish_key_only_spec ba2
        (by rw [hparams, hschema, hmode2 rfl]; rfl)
      refine ⟨hmeta, hrows, htypes, ?_, ?_⟩
      · rw [hlen0]
        exact hkeycol
      · intro idx hidx
        rw [hlen0] at hidx
        exact absurd hidx (by omega)
    | true =>
      obtain ⟨hmeta, hrows, htypes, hkeycol, haggcols⟩ := finish_agg_spec ba2
        (by rw [hparams]; exact hmode rfl)
        (by rw [hparams]; exact hschema)
      exact ⟨hmeta, hrows, htypes, hkeycol, haggcols⟩

/-- C8 witness: Scenario B's bucket-0 chunk merged serially emits one
metadata-free chunk whose row count is the final table size. -/
theorem merge_chunks_output_contract_witness :
    ∃ ba2 outs,
      BucketAggregator.merge_chunks (K := Nat) true (BucketAggregator.create sumParams)
          [chunkB0] = Except.ok (ba2, outs) ∧
      ∃ ch, outs = [ch] ∧ ch.meta = none ∧ ch.num_rows = ba2.hash_table.length ∧
        ch.columns.map (·.2) = ba2.params.output_schema_fields := by
  obtain ⟨pr, hpr⟩ : ∃ pr, BucketAggregator.merge_chunks (K := Nat) true
      (BucketAggregator.create sumParams) [chunkB0] = Except.ok pr := ⟨_, rfl⟩
  obtain ⟨ch, houts, _, hmeta, hrows, htypes, _, _⟩ :=
    merge_chunks_output_contract true (BucketAggregator.create sumParams) [chunkB0]
      pr.1 pr.2 (by rw [hpr])
      (fun _ => by simp [BucketAggregator.create, sumParams])
      (fun h => absurd h (by decide)) (by decide)
  exact ⟨pr.1, pr.2, by rw [hpr], ch, houts, hmeta, hrows, htypes⟩

/-! ## C1: arena write/read lemmas and the per-row merge loop -/

theorem area_write_length {S : Type} (a : Area S) (addr off : Nat) (s : S) :
    (a.write addr off s).blocks.length = a.blocks.length := by
  simp [Area.write]

theorem getD_set_ne {A : Type} (l : List A) (i j : Nat) (x : A) (d : A) (h : j ≠ i) :
    (l.set i x).getD j d = l.getD j d := by
  rw [List.getD_eq_getElem?_getD, List.getD_eq_getElem?_getD, List.getElem?_set_ne (by omega)]

theorem getD_set_self {A : Type} (l : List A) (i : Nat) (x : A) (d : A)
    (h : i < l.length) :
    (l.set i x).getD i d = x := by
  rw [List.getD_eq_getElem?_getD, List.getElem?_set_self (by omega)]
  rfl

theorem area_write_getD_ne {S : Type} (a : Area S) (addr off : Nat) (s : S) (a2 : Nat)
    (h : a2 ≠ addr) :
    (a.write addr off s).blocks.getD a2 [] = a.blocks.getD a2 [] := by
  simp only [Area.write]
  exact getD_set_ne _ _ _ _ _ h

theorem area_write_getD_self {S : Type} (a : Area S) (addr off : Nat) (s : S)
    (h : addr < a.blocks.length) :
    (a.write addr off s).blocks.getD addr [] = (a.blocks.getD addr []).set off s := by
  simp only [Area.write]
  exact getD_set_self _ _ _ _ h

theorem merge_row_go {V S R : Type} [Inhabited S] [Inhabited V]
    (offs : List Nat) (tp place : Nat) (hne : tp ≠ place)
    (scols : List (List V)) (row : Nat) :
    ∀ (l : List (Nat × AggregateFunction V S R)) (area : Area S),
    (l.map (·.1)).Nodup →
    (∀ p ∈ l, offs.getD p.1 0 = p.1) →
    (∀ p ∈ l, p.1 < (area.blocks.getD tp []).length) →
    (∀ p ∈ l, p.1 < (area.blocks.getD place []).length) →
    tp < area.blocks.length → place < area.blocks.length →
    (l.foldl (fun ar p =>
        let off := offs.getD p.1 0
        let data := (scols.getD p.1 []).getD row default
        let ar1 := ar.write tp off (p.2.deserialize data)
        ar1.write place off (p.2.merge (ar1.read place off) (ar1.read tp off)))
      area).blocks.length = area.blocks.length ∧
    (∀ a, a ≠ tp → a ≠ place →
      (l.foldl (fun ar p =>
        let off := offs.getD p.1 0
        let data := (scols.getD p.1 []).getD row default
        let ar1 := ar.write tp off (p.2.deserialize data)
        ar1.write place off (p.2.merge (ar1.read place off) (ar1.read tp off)))
      area).blocks.getD a [] = area.blocks.getD a []) ∧
    ((l.foldl (fun ar p =>
        let off := offs.getD p.1 0
        let data := (scols.getD p.1 []).getD row default
        let ar1 := ar.write tp off (p.2.deserialize data)
        ar1.write place off (p.2.merge (ar1.read place off) (ar1.read tp off)))
      area).blocks.getD tp []).length = (area.blocks.getD tp []).length ∧
    ((l.foldl (fun ar p =>
        let off := offs.getD p.1 0
        let data := (scols.getD p.1 []).getD row default
        let ar1 := ar.write tp off (p.2.deserialize data)
        ar1.write place off (p.2.merge (ar1.read place off) (ar1.read tp off)))
      area).blocks.getD place []).length = (area.blocks.getD place []).length ∧
    (∀ j, j ∉ l.map (·.1) →
      ((l.foldl (fun ar p =>
        let off := offs.getD p.1 0
        let data := (scols.getD p.1 []).getD row default
        let ar1 := ar.write tp off (p.2.deserialize data)
        ar1.write place off (p.2.merge (ar1.read place off) (ar1.read tp off)))
      area).blocks.getD place []).getD j default =
        (area.blocks.getD place []).getD j default) ∧
    (∀ p ∈ l,
      ((l.foldl (fun ar p =>
        let off := offs.getD p.1 0
        let data := (scols.getD p.1 []).getD row default
        let ar1 := ar.write tp off (p.2.deserialize data)
        ar1.write place off (p.2.merge (ar1.read place off) (ar1.read tp off)))
      area).blocks.getD place []).getD p.1 default =
        p.2.merge ((area.blocks.getD place []).getD p.1 default)
          (p.2.deserialize ((scols.getD p.1 []).getD row default)))
  | [], area, _, _, _, _, _, _ => by
    refine ⟨rfl, fun a _ _ => rfl, rfl, rfl, fun j _ => rfl, ?_⟩
    intro p hp
    exact absurd hp (by simp)
  | p0 :: l, area, hnodup, hoffs, htplen, hplacelen, htp, hplace => by
    have hoff0 : offs.getD p0.1 0 = p0.1 := hoffs p0 (by simp)
    have htp0 : p0.1 < (area.blocks.getD tp []).length := htplen p0 (by simp)
    have hplace0 : p0.1 < (area.blocks.getD place []).length := hplacelen p0 (by simp)
    set data0 := (scols.getD p0.1 []).getD row default with hdata0
    set ar1 := area.write tp (offs.getD p0.1 0) (p0.2.deserialize data0) with har1
    set ar2 := ar1.write place (offs.getD p0.1 0)
      (p0.2.merge (ar1.read place (offs.getD p0.1 0)) (ar1.read tp (offs.getD p0.1 0)))
      with har2
    have h1tp : ar1.blocks.getD tp [] = (area.blocks.getD tp []).set p0.1
        (p0.2.deserialize data0) := by
      rw [har1, hoff0]
      exact area_write_getD_self area tp p0.1 _ htp
    have h1place : ar1.blocks.getD place [] = area.blocks.getD place [] := by
      rw [har1]
      exact area_write_getD_ne area tp _ _ place (Ne.symm hne)
    have h1other : ∀ a, a ≠ tp → ar1.blocks.getD a [] = area.blocks.getD a [] := by
      intro a ha
      rw [har1]
      exact area_write_getD_ne area tp _ _ a ha
    have h1len : ar1.blocks.length = area.blocks.length := by
      rw [har1]; exact area_write_length area tp _ _
    have h2place : ar2.blocks.getD place [] = (area.blocks.getD place []).set p0.1
        (p0.2.merge ((area.blocks.getD place []).getD p0.1 default)
          (p0.2.deserialize data0)) := by
      rw [har2, hoff0]
      have hr1 : ar1.read place p0.1 = (area.blocks.getD place []).getD p0.1 default := by
        rw [Area.read, h1place]
      have hr2 : ar1.read tp p0.1 = p0.2.deserialize data0 := by
        rw [Area.read, h1tp]
        exact getD_set_self _ _ _ _ htp0
      rw [← hoff0]
      rw [area_write_getD_self ar1 place _ _ (by rw [h1len]; exact hplace)]
      rw [hoff0, hr1, hr2, h1place]
    have h2tp : ar2.blocks.getD tp [] = ar1.blocks.getD tp [] := by
      rw [har2]
      exact area_write_getD_ne ar1 place _ _ tp hne
    have h2other : ∀ a, a ≠ tp → a ≠ place → ar2.blocks.getD a [] = area.blocks.getD a [] := by
      intro a ha hb
      rw [har2]
      rw [area_write_getD_ne ar1 place _ _ a hb]
      exact h1other a ha
    have h2len : ar2.blocks.length = area.blocks.length := by
      rw [har2, area_write_length, h1len]
    have h2tpval : ar2.blocks.getD tp [] = (area.blocks.getD tp []).set p0.1
        (p0.2.deserialize data0) := by rw [h2tp, h1tp]
    have h2tplen : (ar2.blocks.getD tp []).length = (area.blocks.getD tp []).length := by
      rw [h2tpval, List.length_set]
    have h2placelen : (ar2.blocks.getD place []).length =
        (area.blocks.getD place []).length := by
      rw [h2place, List.length_set]
    have hindnodup : (l.map (·.1)).Nodup := (List.nodup_cons.mp (by simpa using hnodup)).2
    have hp0notin : p0.1 ∉ l.map (·.1) := (List.nodup_cons.mp (by simpa using hnodup)).1
    obtain ⟨ih1, ih2, ih3, ih4, ih5, ih6⟩ := merge_row_go offs tp place hne scols row l ar2
      hindnodup
      (fun p hp => hoffs p (List.mem_cons_of_mem _ hp))
      (fun p hp => by rw [h2tplen]; exact htplen p (List.mem_cons_of_mem _ hp))
      (fun p hp => by rw [h2placelen]; exact hplacelen p (List.mem_cons_of_mem _ hp))
      (by rw [h2len]; exact htp) (by rw [h2len]; exact hplace)
    rw [List.foldl_cons]
    refine ⟨by rw [ih1, h2len], ?_, ?_, ?_, ?_, ?_⟩
    · intro a ha hb
      rw [ih2 a ha hb]
      exact h2other a ha hb
    · rw [ih3, h2tplen]
    · rw [ih4, h2placelen]
    · intro j hj
      have hj0 : j ≠ p0.1 := fun hh => hj (by simp [hh])
      have hjl : j ∉ l.map (·.1) := fun hh => hj (by simp [hh])
      rw [ih5 j hjl, h2place]
      exact getD_set_ne _ _ _ _ _ hj0
    · intro p hp
      rcases List.mem_cons.mp hp with rfl | hpl
      · rw [ih5 p.1 hp0notin, h2place]
        rw [getD_set_self _ _ _ _ hplace0]
      · have hpne : p.1 ≠ p0.1 := by
          intro hh
          exact hp0notin (hh ▸ List.mem_map_of_mem (·.1) hpl)
        rw [ih6 p hpl, h2place]
        rw [getD_set_ne _ _ _ _ _ hpne]

theorem getD_range_map {A : Type} (f : Nat → A) (n i : Nat) (h : i < n) (d : A) :
    ((List.range n).map f).getD i d = f i := by
  rw [List.getD_eq_getElem _ _ (by simp [h])]
  simp

theorem block_step_length {V S R : Type} [Inhabited S] [Inhabited V]
    (fns : List (AggregateFunction V S R)) (block : List S) (payload : List V) :
    (block_step fns block payload).length = fns.length := by
  rw [block_step, List.length_map, List.enum_length]

theorem merge_row_spec {V S R : Type} [Inhabited S] [Inhabited V]
    (fns : List (AggregateFunction V S R)) (tp place : Nat) (hne : tp ≠ place)
    (scols : List (List V)) (row : Nat) (area : Area S)
    (htplen : (area.blocks.getD tp []).length = fns.length)
    (hplacelen : (area.blocks.getD place []).length = fns.length)
    (htp : tp < area.blocks.length) (hplace : place < area.blocks.length) :
    (merge_row fns (List.range fns.length) tp place scols row area).blocks.length =
      area.blocks.length ∧
    (∀ a, a ≠ tp → a ≠ place →
      (merge_row fns (List.range fns.length) tp place scols row area).blocks.getD a [] =
        area.blocks.getD a []) ∧
    ((merge_row fns (List.range fns.length) tp place scols row area).blocks.getD tp []).length =
      fns.length ∧
    (merge_row fns (List.range fns.length) tp place scols row area).blocks.getD place [] =
      block_step fns (area.blocks.getD place [])
        ((List.range fns.length).map (fun i => (scols.getD i []).getD row default)) := by
  have hmapfst : fns.enum.map (·.1) = List.range fns.length := List.enum_map_fst fns
  have hmem1 : ∀ p ∈ fns.enum, p.1 < fns.length := by
    intro p hp
    have : p.1 ∈ fns.enum.map (·.1) := List.mem_map_of_mem _ hp
    rw [hmapfst] at this
    exact List.mem_range.mp this
  obtain ⟨g1, g2, g3, g4, g5, g6⟩ := merge_row_go (List.range fns.length) tp place hne scols row
    fns.enum area
    (by rw [hmapfst]; exact List.nodup_range fns.length)
    (fun p hp => by
      rw [List.getD_eq_getElem _ _ (by simpa using hmem1 p hp)]
      simp)
    (fun p hp => by rw [htplen]; exact hmem1 p hp)
    (fun p hp => by rw [hplacelen]; exact hmem1 p hp)
    htp hplace
  have hmr : merge_row fns (List.range fns.length) tp place scols row area =
      fns.enum.foldl
        (fun ar p =>
          let off := (List.range fns.length).getD p.1 0
          let data := (scols.getD p.1 []).getD row default
          let ar1 := ar.write tp off (p.2.deserialize data)
          ar1.write place off (p.2.merge (ar1.read place off) (ar1.read tp off)))
        area := rfl
  rw [hmr]
  refine ⟨g1, g2, by rw [g3, htplen], ?_⟩
  have hlen1 : ((fns.enum.foldl
      (fun ar p =>
        let off := (List.range fns.length).getD p.1 0
        let data := (scols.getD p.1 []).getD row default
        let ar1 := ar.write tp off (p.2.deserialize data)
        ar1.write place off (p.2.merge (ar1.read place off) (ar1.read tp off)))
      area).blocks.getD place []).length = fns.length := by
    rw [g4, hplacelen]
  apply List.ext_getElem
  · rw [hlen1, block_step_length]
  · intro i h1 h2
    have hi : i < fns.length := by rw [hlen1] at h1; exact h1
    have hienum : i < fns.enum.length := by rw [List.enum_length]; exact hi
    have hp : fns.enum.get ⟨i, hienum⟩ ∈ fns.enum := List.get_mem fns.enum i hienum
    have h6 := g6 _ hp
    have hval : fns.enum.get ⟨i, hienum⟩ = (i, fns.get ⟨i, hi⟩) := by
      rw [List.get_eq_getElem, List.getElem_enum]
      rfl
    rw [hval] at h6
    have hbval : (block_step fns (area.blocks.getD place [])
        ((List.range fns.length).map (fun j => (scols.getD j []).getD row default)))[i] =
        fns[i].merge ((area.blocks.getD place []).getD i default)
          (fns[i].deserialize ((scols.getD i []).getD row default)) := by
      simp only [block_step]
      rw [List.getElem_map, List.getElem_enum]
      rw [getD_range_map _ _ _ hi]
    rw [hbval]
    rw [← List.getD_eq_getElem _ default h1]
    exact h6

theorem rows_from_map_fst {K V R : Type} [Inhabited V] (c : Chunk K V R) (n : Nat) :
    ∀ (ks : List K) (s : Nat), (rows_from c n ks s).map (·.1) = ks
  | [], _ => rfl
  | k :: ks, s => by
    simp only [rows_from, List.map_cons]
    rw [rows_from_map_fst c n ks (s + 1)]

theorem key_payloads_cons {K V : Type} [DecidableEq K] (k0 k : K) (p : List V)
    (rest : List (K × List V)) :
    key_payloads ((k0, p) :: rest) k =
      if k0 = k then p :: key_payloads rest k else key_payloads rest k := by
  simp only [key_payloads, List.filter_cons]
  by_cases h : k0 = k
  · rw [if_pos (by simpa using h), if_pos h]
    rfl
  · rw [if_neg (by simpa using h), if_neg h]

theorem key_payloads_nil_of_not_mem {K V : Type} [DecidableEq K] (k : K) :
    ∀ rows : List (K × List V), k ∉ rows.map (·.1) → key_payloads rows k = []
  | [], _ => rfl
  | (k0, p) :: rest, h => by
    have h0 : k0 ≠ k := fun hh => h (by simp [hh])
    rw [key_payloads_cons, if_neg h0]
    exact key_payloads_nil_of_not_mem k rest (fun hh => h (by simp [hh]))

theorem key_payloads_append {K V : Type} [DecidableEq K] (k : K)
    (r1 r2 : List (K × List V)) :
    key_payloads (r1 ++ r2) k = key_payloads r1 k ++ key_payloads r2 k := by
  simp [key_payloads, List.filter_append]

theorem merge_loop_spec {K V S R : Type} [DecidableEq K] [Inhabited S] [Inhabited V]
    (fns : List (AggregateFunction V S R)) (hfl : 1 ≤ fns.length)
    (c : Chunk K V R) (scols : List (List V))
    (hdata : ∀ i, i < fns.length → scols.getD i [] = chunk_state_col c i) :
    ∀ (ks : List K) (s : Nat) (area : Area S) (addrF : K → Nat),
    (∀ k ∈ ks, 1 ≤ addrF k) →
    (∀ k ∈ ks, addrF k < area.blocks.length) →
    (∀ k1 k2, k1 ∈ ks → k2 ∈ ks → addrF k1 = addrF k2 → k1 = k2) →
    (∀ k ∈ ks, (area.blocks.getD (addrF k) []).length = fns.length) →
    ((area.blocks.getD 0 []).length = fns.length) →
    (((ks.map addrF).enumFrom s).foldl
        (fun ar rp => merge_row fns (List.range fns.length) 0 rp.2 scols rp.1 ar)
        area).blocks.length = area.blocks.length ∧
    ((((ks.map addrF).enumFrom s).foldl
        (fun ar rp => merge_row fns (List.range fns.length) 0 rp.2 scols rp.1 ar)
        area).blocks.getD 0 []).length = fns.length ∧
    (∀ a, a ≠ 0 → (∀ k ∈ ks, addrF k ≠ a) →
      (((ks.map addrF).enumFrom s).foldl
        (fun ar rp => merge_row fns (List.range fns.length) 0 rp.2 scols rp.1 ar)
        area).blocks.getD a [] = area.blocks.getD a []) ∧
    (∀ k ∈ ks,
      (((ks.map addrF).enumFrom s).foldl
        (fun ar rp => merge_row fns (List.range fns.length) 0 rp.2 scols rp.1 ar)
        area).blocks.getD (addrF k) [] =
      (key_payloads (rows_from c fns.length ks s) k).foldl (block_step fns)
        (area.blocks.getD (addrF k) []))
  | [], s, area, addrF, _, _, _, _, hscr => by
    refine ⟨rfl, hscr, fun a _ _ => rfl, ?_⟩
    intro k hk
    exact absurd hk (by simp)
  | k0 :: ks, s, area, addrF, hge1, hlt, hinj, hblen, hscr => by
    have hne0 : (0 : Nat) ≠ addrF k0 := by
      have := hge1 k0 (by simp)
      omega
    have h0lt : 0 < area.blocks.length := by
      by_contra hcon
      have hz : area.blocks.length = 0 := by omega
      have : area.blocks.getD 0 [] = [] := by
        rw [List.getD_eq_getElem?_getD, List.getElem?_eq_none (by omega)]
        rfl
      rw [this] at hscr
      simp at hscr
      omega
    obtain ⟨m1, m2, m3tp, m4⟩ := merge_row_spec fns 0 (addrF k0) hne0 scols s area
      hscr (hblen k0 (by simp)) h0lt (hlt k0 (by simp))
    set area1 := merge_row fns (List.range fns.length) 0 (addrF k0) scols s area with harea1
    have hblen1 : ∀ k ∈ ks, (area1.blocks.getD (addrF k) []).length = fns.length := by
      intro k hk
      by_cases hak : addrF k = addrF k0
      · rw [hak, m4, block_step_length]
      · rw [m2 (addrF k) (by
          intro hh
          have := hge1 k (List.mem_cons_of_mem _ hk)
          omega) hak]
        exact hblen k (List.mem_cons_of_mem _ hk)
    obtain ⟨ih1, ih2, ih3, ih4⟩ := merge_loop_spec fns hfl c scols hdata ks (s + 1) area1 addrF
      (fun k hk => hge1 k (List.mem_cons_of_mem _ hk))
      (fun k hk => by rw [m1]; exact hlt k (List.mem_cons_of_mem _ hk))
      (fun k1 k2 h1 h2 he => hinj k1 k2 (List.mem_cons_of_mem _ h1)
        (List.mem_cons_of_mem _ h2) he)
      hblen1 m3tp
    have hfold : (((k0 :: ks).map addrF).enumFrom s).foldl
        (fun ar rp => merge_row fns (List.range fns.length) 0 rp.2 scols rp.1 ar) area =
        ((ks.map addrF).enumFrom (s + 1)).foldl
          (fun ar rp => merge_row fns (List.range fns.length) 0 rp.2 scols rp.1 ar) area1 := by
      rfl
    rw [hfold]
    have hpayeq : (List.range fns.length).map (fun i => (scols.getD i []).getD s default) =
        (List.range fns.length).map (fun idx => (chunk_state_col c idx).getD s default) := by
      apply List.map_congr_left
      intro i hi
      rw [hdata i (List.mem_range.mp hi)]
    refine ⟨by rw [ih1, m1], ih2, ?_, ?_⟩
    · intro a ha hks
      rw [ih3 a ha (fun k hk => hks k (List.mem_cons_of_mem _ hk))]
      exact m2 a ha (hks k0 (by simp)).symm
    · intro k hk
      have hrows : rows_from c fns.length (k0 :: ks) s =
          (k0, (List.range fns.length).map (fun idx => (chunk_state_col c idx).getD s default)) ::
            rows_from c fns.length ks (s + 1) := rfl
      rw [hrows, key_payloads_cons]
      rcases List.mem_cons.mp hk with rfl | hkks
      · by_cases hkin : k ∈ ks
        · rw [ih4 k hkin, m4, if_pos rfl]
          rw [List.foldl_cons, hpayeq]
        · have haddr : ∀ k2 ∈ ks, addrF k2 ≠ addrF k := by
            intro k2 hk2 hh
            exact hkin ((hinj k2 k (List.mem_cons_of_mem _ hk2) (by simp) hh) ▸ hk2)
          rw [ih3 (addrF k) (by
              have := hge1 k (by simp)
              omega) haddr]
          rw [m4, if_pos rfl]
          rw [key_payloads_nil_of_not_mem k _ (by
            rw [rows_from_map_fst]
            exact hkin)]
          rw [List.foldl_cons, List.foldl_nil, hpayeq]
      · by_cases hk0 : k0 = k
        · subst hk0
          rw [if_pos rfl, ih4 k0 hkks, m4]
          rw [List.foldl_cons, hpayeq]
        · rw [if_neg hk0, ih4 k hkks]
          have hane : addrF k ≠ addrF k0 := by
            intro hh
            exact hk0 (hinj k k0 (List.mem_cons_of_mem _ hkks) (by simp) hh).symm
          rw [m2 (addrF k) (by
            have := hge1 k (List.mem_cons_of_mem _ hkks)
            omega) hane]

theorem insert_fold_key_prefix {K : Type} [DecidableEq K] :
    ∀ (ks : List K) (acc : List K),
      ∃ ext, ks.foldl (fun acc k => if k ∈ acc then acc else acc ++ [k]) acc = acc ++ ext
  | [], acc => ⟨[], by simp⟩
  | k :: ks, acc => by
    rw [List.foldl_cons]
    by_cases hk : k ∈ acc
    · rw [if_pos hk]
      exact insert_fold_key_prefix ks acc
    · rw [if_neg hk]
      obtain ⟨ext, hext⟩ := insert_fold_key_prefix ks (acc ++ [k])
      exact ⟨[k] ++ ext, by rw [hext, List.append_assoc]⟩

theorem insert_fold_key_mem {K : Type} [DecidableEq K] :
    ∀ (ks : List K) (acc : List K) (k2 : K),
      k2 ∈ ks.foldl (fun acc k => if k ∈ acc then acc else acc ++ [k]) acc ↔
        k2 ∈ acc ∨ k2 ∈ ks
  | [], acc, k2 => by simp
  | k :: ks, acc, k2 => by
    rw [List.foldl_cons]
    by_cases hk : k ∈ acc
    · rw [if_pos hk, insert_fold_key_mem ks acc k2]
      simp only [List.mem_cons]
      constructor
      · rintro (h | h)
        · exact Or.inl h
        · exact Or.inr (Or.inr h)
      · rintro (h | rfl | h)
        · exact Or.inl h
        · exact Or.inl hk
        · exact Or.inr h
    · rw [if_neg hk, insert_fold_key_mem ks (acc ++ [k]) k2]
      simp only [List.mem_append, List.mem_singleton, List.mem_cons]
      tauto

theorem insert_fold_key_nodup {K : Type} [DecidableEq K] :
    ∀ (ks : List K) (acc : List K), acc.Nodup →
      (ks.foldl (fun acc k => if k ∈ acc then acc else acc ++ [k]) acc).Nodup
  | [], _, h => h
  | k :: ks, acc, h => by
    rw [List.foldl_cons]
    by_cases hk : k ∈ acc
    · rw [if_pos hk]
      exact insert_fold_key_nodup ks acc h
    · rw [if_neg hk]
      exact insert_fold_key_nodup ks (acc ++ [k])
        (List.Nodup.append h (List.nodup_singleton k) (by simpa using hk))

theorem idx_of_append_left {K : Type} [DecidableEq K] :
    ∀ (l1 l2 : List K) (k : K), k ∈ l1 → idx_of (l1 ++ l2) k = idx_of l1 k
  | [], _, k, h => absurd h (by simp)
  | a :: l1, l2, k, h => by
    simp only [List.cons_append, idx_of]
    by_cases ha : a = k
    · rw [if_pos ha, if_pos ha]
    · rw [if_neg ha, if_neg ha, List.append_eq,
        idx_of_append_left l1 l2 k (by
          rcases List.mem_cons.mp h with h1 | h1
          · exact absurd h1.symm ha
          · exact h1)]

theorem idx_of_append_self {K : Type} [DecidableEq K] :
    ∀ (l : List K) (k : K), k ∉ l → idx_of (l ++ [k]) k = l.length
  | [], k, _ => by simp [idx_of]
  | a :: l, k, h => by
    simp only [List.cons_append, idx_of, List.length_cons]
    rw [if_neg (fun ha => h (by simp [ha])), List.append_eq,
      idx_of_append_self l k (fun hl => h (List.mem_cons_of_mem _ hl))]

theorem idx_of_lt_length {K : Type} [DecidableEq K] :
    ∀ (l : List K) (k : K), k ∈ l → idx_of l k < l.length
  | [], k, h => absurd h (by simp)
  | a :: l, k, h => by
    simp only [idx_of, List.length_cons]
    by_cases ha : a = k
    · rw [if_pos ha]
      omega
    · rw [if_neg ha]
      have : k ∈ l := by
        rcases List.mem_cons.mp h with h1 | h1
        · exact absurd h1.symm ha
        · exact h1
      have := idx_of_lt_length l k this
      omega

theorem assocFind_enum_table {K : Type} [DecidableEq K] :
    ∀ (tk : List K) (s : Nat) (k : K),
      assocFind ((tk.enumFrom s).map (fun ik => (ik.2, ik.1 + 1))) k =
        if k ∈ tk then some (idx_of tk k + s + 1) else none
  | [], _, k => by simp [assocFind]
  | a :: tk, s, k => by
    simp only [List.enumFrom, List.map_cons, assocFind]
    by_cases ha : a = k
    · rw [if_pos ha, if_pos (by simp [ha]), idx_of, if_pos ha]
      congr 1
      omega
    · rw [if_neg ha, assocFind_enum_table tk (s + 1) k]
      by_cases hk : k ∈ tk
      · rw [if_pos hk, if_pos (by simp [hk]), idx_of, if_neg ha]
        congr 1
        omega
      · rw [if_neg hk, if_neg (by
          simp only [List.mem_cons]
          rintro (h | h)
          · exact ha h.symm
          · exact hk h)]

theorem lookup_step_hit {K V S R : Type} [DecidableEq K]
    (ba : BucketAggregator K V S R) (k : K) (addr : Nat)
    (h : assocFind ba.hash_table k = some addr) :
    lookup_step ([], ba) k = ([addr], ba) := by
  unfold lookup_step
  rw [h]
  rfl

theorem lookup_step_miss {K V S R : Type} [DecidableEq K]
    (ba : BucketAggregator K V S R) (k : K)
    (h : assocFind ba.hash_table k = none)
    (hne : ba.params.aggregate_functions ≠ []) :
    lookup_step ([], ba) k =
      ([ba.area.blocks.length],
        { ba with
          area := ⟨ba.area.blocks ++ [ba.params.aggregate_functions.map (·.init_state)]⟩,
          hash_table := ba.hash_table ++ [(k, ba.area.blocks.length)] }) := by
  unfold lookup_step
  rw [h]
  have halloc : ba.params.alloc_layout ba.area =
      (some ba.area.blocks.length,
        ⟨ba.area.blocks ++ [ba.params.aggregate_functions.map (·.init_state)]⟩) := by
    unfold AggregatorParams.alloc_layout
    rw [if_neg (by simpa [List.isEmpty_iff] using hne)]
  rw [halloc]
  rfl

theorem lookup_state_struct {K V S R : Type} [DecidableEq K] [Inhabited S] [Inhabited V]
    (fns : List (AggregateFunction V S R)) (hne : fns ≠ []) :
    ∀ (ks : List K) (ba : BucketAggregator K V S R) (tk : List K),
    ba.params.aggregate_functions = fns →
    ba.hash_table = tk.enum.map (fun ik => (ik.2, ik.1 + 1)) →
    ba.area.blocks.length = tk.length + 1 →
    (ba.lookup_state ks).2.params = ba.params ∧
    (ba.lookup_state ks).2.temp_place = ba.temp_place ∧
    (ba.lookup_state ks).2.hash_table =
      (ks.foldl (fun acc k => if k ∈ acc then acc else acc ++ [k]) tk).enum.map
        (fun ik => (ik.2, ik.1 + 1)) ∧
    (ba.lookup_state ks).2.area.blocks.length =
      (ks.foldl (fun acc k => if k ∈ acc then acc else acc ++ [k]) tk).length + 1 ∧
    (∀ a, a < tk.length + 1 →
      (ba.lookup_state ks).2.area.blocks.getD a [] = ba.area.blocks.getD a []) ∧
    (∀ j, tk.length + 1 ≤ j →
      j < (ks.foldl (fun acc k => if k ∈ acc then acc else acc ++ [k]) tk).length + 1 →
      (ba.lookup_state ks).2.area.blocks.getD j [] = init_block fns) ∧
    (ba.lookup_state ks).1 =
      ks.map (fun k =>
        idx_of (ks.foldl (fun acc k2 => if k2 ∈ acc then acc else acc ++ [k2]) tk) k + 1)
  | [], ba, tk, hfns, htable, hlen => by
    refine ⟨rfl, rfl, htable, by simpa using hlen, fun a _ => rfl, ?_, rfl⟩
    intro j hj1 hj2
    simp only [List.foldl_nil] at hj2
    omega
  | k0 :: ks, ba, tk, hfns, htable, hlen => by
    have hfind : assocFind ba.hash_table k0 =
        if k0 ∈ tk then some (idx_of tk k0 + 0 + 1) else none := by
      rw [htable, List.enum]
      exact assocFind_enum_table tk 0 k0
    by_cases hk0 : k0 ∈ tk
    · rw [if_pos hk0] at hfind
      have hstep := lookup_step_hit ba k0 (idx_of tk k0 + 0 + 1) hfind
      have hsplit : ba.lookup_state (k0 :: ks) =
          ([idx_of tk k0 + 0 + 1] ++ (ba.lookup_state ks).1, (ba.lookup_state ks).2) := by
        show (k0 :: ks).foldl lookup_step ([], ba) = _
        rw [List.foldl_cons, hstep]
        exact lookup_foldl_shift ks ba [idx_of tk k0 + 0 + 1]
      obtain ⟨ih1, ih2, ih3, ih4, ih5, ih6, ih7⟩ :=
        lookup_state_struct fns hne ks ba tk hfns htable hlen
      have hfold : (k0 :: ks).foldl (fun acc k => if k ∈ acc then acc else acc ++ [k]) tk =
          ks.foldl (fun acc k => if k ∈ acc then acc else acc ++ [k]) tk := by
        rw [List.foldl_cons, if_pos hk0]
      rw [hsplit]
      refine ⟨ih1, ih2, by rw [hfold]; exact ih3, by rw [hfold]; exact ih4, ih5,
        by rw [hfold]; exact ih6, ?_⟩
      rw [List.map_cons, hfold, ih7]
      obtain ⟨ext, hext⟩ := insert_fold_key_prefix ks tk
      rw [hext, idx_of_append_left tk ext k0 hk0]
      rfl
    · rw [if_neg hk0] at hfind
      have hfnsne : ba.params.aggregate_functions ≠ [] := by
        rw [hfns]; exact hne
      have hstep := lookup_step_miss ba k0 hfind hfnsne
      set ba2 : BucketAggregator K V S R :=
        { ba with
          area := ⟨ba.area.blocks ++ [ba.params.aggregate_functions.map (·.init_state)]⟩,
          hash_table := ba.hash_table ++ [(k0, ba.area.blocks.length)] } with hba2
      have hsplit : ba.lookup_state (k0 :: ks) =
          ([ba.area.blocks.length] ++ (ba2.lookup_state ks).1, (ba2.lookup_state ks).2) := by
        show (k0 :: ks).foldl lookup_step ([], ba) = _
        rw [List.foldl_cons, hstep]
        exact lookup_foldl_shift ks ba2 [ba.area.blocks.length]
      have htable2 : ba2.hash_table =
          (tk ++ [k0]).enum.map (fun ik => (ik.2, ik.1 + 1)) := by
        rw [hba2]
        show ba.hash_table ++ [(k0, ba.area.blocks.length)] = _
        rw [htable, hlen, List.enum_append]
        simp [List.enumFrom]
      have hlen2 : ba2.area.blocks.length = (tk ++ [k0]).length + 1 := by
        rw [hba2]
        show (ba.area.blocks ++ [ba.params.aggregate_functions.map (·.init_state)]).length = _
        rw [List.length_append, hlen, List.length_append]
        simp
      obtain ⟨ih1, ih2, ih3, ih4, ih5, ih6, ih7⟩ :=
        lookup_state_struct fns hne ks ba2 (tk ++ [k0]) hfns htable2 hlen2
      have hfold : (k0 :: ks).foldl (fun acc k => if k ∈ acc then acc else acc ++ [k]) tk =
          ks.foldl (fun acc k => if k ∈ acc then acc else acc ++ [k]) (tk ++ [k0]) := by
        rw [List.foldl_cons, if_neg hk0]
      rw [hsplit]
      refine ⟨ih1, ih2, by rw [hfold]; exact ih3, by rw [hfold]; exact ih4, ?_, ?_, ?_⟩
      · intro a ha
        rw [ih5 a (by simp only [List.length_append, List.length_cons, List.length_nil]; omega)]
        rw [hba2]
        show (ba.area.blocks ++ [ba.params.aggregate_functions.map (·.init_state)]).getD a [] = _
        rw [getD_append_lt _ _ _ _ (by omega)]
      · intro j hj1 hj2
        rw [hfold] at hj2
        by_cases hjnew : j = tk.length + 1
        · rw [ih5 j (by simp only [List.length_append, List.length_cons, List.length_nil]; omega)]
          rw [hba2]
          show (ba.area.blocks ++ [ba.params.aggregate_functions.map (·.init_state)]).getD j [] = _
          rw [hjnew, ← hlen, getD_append_length]
          rw [hfns]
          rfl
        · exact ih6 j (by simp only [List.length_append, List.length_cons, List.length_nil]; omega) hj2
      · rw [List.map_cons, hfold, ih7]
        obtain ⟨ext, hext⟩ := insert_fold_key_prefix ks (tk ++ [k0])
        rw [hext, idx_of_append_left (tk ++ [k0]) ext k0 (by simp),
          idx_of_append_self tk k0 hk0, hlen]
        rfl

theorem getD_idx_of {K : Type} [DecidableEq K] :
    ∀ (l : List K) (k d : K), k ∈ l → l.getD (idx_of l k) d = k
  | [], k, _, h => absurd h (by simp)
  | a :: l, k, d, h => by
    simp only [idx_of]
    by_cases ha : a = k
    · rw [if_pos ha, List.getD_cons_zero]
      exact ha
    · rw [if_neg ha, List.getD_cons_succ]
      exact getD_idx_of l k d (by
        rcases List.mem_cons.mp h with h1 | h1
        · exact absurd h1.symm ha
        · exact h1)

theorem idx_of_append_right {K : Type} [DecidableEq K] :
    ∀ (l1 l2 : List K) (k : K), k ∉ l1 → idx_of (l1 ++ l2) k = l1.length + idx_of l2 k
  | [], _, _, _ => by simp
  | a :: l1, l2, k, h => by
    simp only [List.cons_append, idx_of, List.length_cons]
    rw [if_neg (fun ha => h (by simp [ha])), List.append_eq,
      idx_of_append_right l1 l2 k (fun hl => h (List.mem_cons_of_mem _ hl))]
    omega

theorem idx_of_inj {K : Type} [DecidableEq K] (l : List K) (k1 k2 : K)
    (h1 : k1 ∈ l) (h2 : k2 ∈ l) (h : idx_of l k1 = idx_of l k2) : k1 = k2 := by
  have e1 := getD_idx_of l k1 k1 h1
  have e2 := getD_idx_of l k2 k1 h2
  rw [← e1, ← e2, h]

theorem table_keys_mem {K : Type} [DecidableEq K] (l : List K) (k : K) :
    k ∈ table_keys l ↔ k ∈ l := by
  unfold table_keys
  rw [insert_fold_key_mem]
  simp

theorem init_block_length {V S R : Type} (fns : List (AggregateFunction V S R)) :
    (init_block fns : List S).length = fns.length := by
  simp [init_block]

theorem foldl_block_step_length {V S R : Type} [Inhabited S] [Inhabited V]
    (fns : List (AggregateFunction V S R)) :
    ∀ (ps : List (List V)) (b : List S), b.length = fns.length →
      (ps.foldl (block_step fns) b).length = fns.length
  | [], _, h => h
  | p :: ps, b, h => by
    rw [List.foldl_cons]
    exact foldl_block_step_length fns ps (block_step fns b p) (block_step_length fns b p)

theorem key_state_length {K V S R : Type} [DecidableEq K] [Inhabited S] [Inhabited V]
    (fns : List (AggregateFunction V S R)) (rows : List (K × List V)) (k : K) :
    (key_state fns rows k).length = fns.length :=
  foldl_block_step_length fns (key_payloads rows k) (init_block fns) (init_block_length fns)

theorem check_string_cols_ok_spec {K V R : Type} [Inhabited V] :
    ∀ (n : Nat) (cols : List (ColumnData K V R × DataType)) (scols : List (List V)),
      check_string_cols cols n = Except.ok scols →
      (∀ i, i < n → scols.getD i [] =
        (match (cols.getD i (ColumnData.keyCol [], DataType.keyType)).1 with
         | ColumnData.stringCol vs => vs
         | _ => []))
  | 0, _, _, _ => fun i hi => absurd hi (by omega)
  | n + 1, [], scols, h => by simp [check_string_cols] at h
  | n + 1, c :: rest, scols, h => by
    simp only [check_string_cols] at h
    cases hs : c.1.as_string with
    | none => rw [hs] at h; exact absurd h (by simp)
    | some vs =>
      rw [hs] at h
      cases hrec : check_string_cols (V := V) rest n with
      | error e => rw [hrec] at h; exact absurd h (by simp)
      | ok tl =>
        rw [hrec] at h
        have hsc : scols = vs :: tl := by
          cases h
          rfl
        subst hsc
        intro i hi
        cases i with
        | zero =>
          rw [List.getD_cons_zero, List.getD_cons_zero]
          cases hc : c.1 <;> rw [hc] at hs <;> simp [ColumnData.as_string] at hs
          rw [hs]
        | succ j =>
          rw [List.getD_cons_succ, List.getD_cons_succ]
          exact check_string_cols_ok_spec n rest tl hrec j (by omega)

theorem check_string_cols_all_strings {K V R : Type} :
    ∀ (n : Nat) (cols : List (ColumnData K V R × DataType)),
      (∀ i, i < n →
        ((cols.getD i (ColumnData.keyCol [], DataType.keyType)).1).as_string ≠ none) →
      ∃ scols, check_string_cols cols n = Except.ok scols
  | 0, cols, _ => ⟨[], by cases cols <;> rfl⟩
  | n + 1, [], h => absurd rfl (h 0 (by omega))
  | n + 1, c :: rest, h => by
    cases hs : c.1.as_string with
    | none => exact absurd (by rw [List.getD_cons_zero]; exact hs) (h 0 (by omega))
    | some vs =>
      obtain ⟨tl, htl⟩ := check_string_cols_all_strings n rest (fun i hi => by
        have := h (i + 1) (by omega)
        rwa [List.getD_cons_succ] at this)
      exact ⟨vs :: tl, by simp [check_string_cols, hs, htl]⟩

theorem merge_one_good {K V S R : Type} [DecidableEq K] [Inhabited S] [Inhabited V]
    (fns : List (AggregateFunction V S R)) (hne : fns ≠ [])
    (rows : List (K × List V)) (ba : BucketAggregator K V S R) (c : Chunk K V R)
    (hwf : chunk_wf fns.length c = true)
    (hgood : good_state fns rows ba) :
    ∃ ba2, ba.merge_one true c = Except.ok ba2 ∧
      good_state fns (rows ++ chunk_rows fns.length c) ba2 := by
  obtain ⟨hfns, hoffs, htemp, htable, hlen, hscr, hblocks⟩ := hgood
  simp only [chunk_wf, Bool.and_eq_true, decide_eq_true_eq, List.all_eq_true] at hwf
  obtain ⟨⟨hclen, hkeycol⟩, hstrcols⟩ := hwf
  have hkeyeq : chunk_col c fns.length = ColumnData.keyCol (chunk_keys fns.length c) := by
    cases hcc : chunk_col c fns.length with
    | keyCol a => rw [chunk_keys, hcc]
    | stringCol a => rw [hcc] at hkeycol; exact absurd hkeycol (by simp)
    | intCol a => rw [hcc] at hkeycol; exact absurd hkeycol (by simp)
    | resultCol a => rw [hcc] at hkeycol; exact absurd hkeycol (by simp)
  obtain ⟨col, hget, hcol⟩ := chunk_col_get? c fns.length (by omega)
  have hget2 : c.columns.get? ba.params.aggregate_functions.length = some col := by
    rw [hfns]; exact hget
  have hcolkey : col.1 = ColumnData.keyCol (chunk_keys fns.length c) := by
    rw [← hcol]; exact hkeyeq
  have hmo := merge_one_agg_eq ba c hget2 hcolkey
  obtain ⟨scols, hok⟩ := check_string_cols_all_strings fns.length c.columns (by
    intro i hi
    have := hstrcols i (List.mem_range.mpr hi)
    cases hci : chunk_col c i with
    | stringCol vs =>
      have : (c.columns.getD i (ColumnData.keyCol [], DataType.keyType)).1 =
          ColumnData.stringCol vs := hci
      rw [this]
      simp [ColumnData.as_string]
    | keyCol a => rw [hci] at this; exact absurd this (by simp)
    | intCol a => rw [hci] at this; exact absurd this (by simp)
    | resultCol a => rw [hci] at this; exact absurd this (by simp))
  have hdata2 : ∀ i, i < fns.length → scols.getD i [] = chunk_state_col c i := by
    intro i hi
    rw [check_string_cols_ok_spec fns.length c.columns scols hok i hi]
    rw [chunk_state_col, chunk_col]
  refine ⟨merge_agg_core ba (chunk_keys fns.length c) scols, ?_, ?_⟩
  · rw [hmo, hfns, hok]
  · set ks := chunk_keys fns.length c with hks
    set tk := table_keys (rows.map (·.1)) with htk
    obtain ⟨s1, s2, s3, s4, s5, s6, s7⟩ :=
      lookup_state_struct fns hne ks ba tk hfns htable hlen
    set tk2 := ks.foldl (fun acc k => if k ∈ acc then acc else acc ++ [k]) tk with htk2
    obtain ⟨ext, hext⟩ := insert_fold_key_prefix ks tk
    have hmemtk2 : ∀ k2, k2 ∈ tk2 ↔ k2 ∈ tk ∨ k2 ∈ ks := fun k2 =>
      insert_fold_key_mem ks tk k2
    have haddr_eq_old : ∀ k2 ∈ tk, idx_of tk2 k2 = idx_of tk k2 := by
      intro k2 hk2
      rw [htk2, hext]
      exact idx_of_append_left tk ext k2 hk2
    have hfl : 1 ≤ fns.length := List.length_pos.mpr hne
    have hblen2 : ∀ k ∈ ks,
        ((ba.lookup_state ks).2.area.blocks.getD (idx_of tk2 k + 1) []).length =
          fns.length := by
      intro k hk
      by_cases hko : k ∈ tk
      · rw [haddr_eq_old k hko, s5 _ (by
          have := idx_of_lt_length tk k hko
          omega)]
        rw [hblocks k hko, key_state_length]
      · have hlow : tk.length ≤ idx_of tk2 k := by
          rw [htk2, hext, idx_of_append_right tk ext k hko]
          omega
        have hhigh : idx_of tk2 k < tk2.length :=
          idx_of_lt_length tk2 k ((hmemtk2 k).mpr (Or.inr hk))
        rw [s6 (idx_of tk2 k + 1) (by omega) (by omega), init_block_length]
    have hscr2 : ((ba.lookup_state ks).2.area.blocks.getD 0 []).length = fns.length := by
      rw [s5 0 (by omega)]
      exact hscr
    obtain ⟨L1, L2, L3, L4⟩ := merge_loop_spec fns hfl c scols hdata2 ks 0
      (ba.lookup_state ks).2.area (fun k => idx_of tk2 k + 1)
      (fun k _ => by show 1 ≤ idx_of tk2 k + 1; omega)
      (fun k hk => by
        show idx_of tk2 k + 1 < (ba.lookup_state ks).2.area.blocks.length
        rw [s4]
        have := idx_of_lt_length tk2 k ((hmemtk2 k).mpr (Or.inr hk))
        omega)
      (fun k1 k2 h1 h2 he => idx_of_inj tk2 k1 k2 ((hmemtk2 k1).mpr (Or.inr h1))
        ((hmemtk2 k2).mpr (Or.inr h2)) (by simpa using he))
      hblen2 hscr2
    have hsometemp : (ba.lookup_state ks).2.temp_place = some 0 := by
      rw [s2, htemp]
    have harg : ((ba.lookup_state ks).1.enum.foldl
        (fun ar rp =>
          merge_row (ba.lookup_state ks).2.params.aggregate_functions
            (ba.lookup_state ks).2.params.offsets_aggregate_states 0 rp.2 scols rp.1 ar)
        (ba.lookup_state ks).2.area) =
        (((ks.map (fun k => idx_of tk2 k + 1)).enumFrom 0).foldl
          (fun ar rp => merge_row fns (List.range fns.length) 0 rp.2 scols rp.1 ar)
          (ba.lookup_state ks).2.area) := by
      rw [s7, s1, hfns, hoffs]
      rfl
    have hcore : merge_agg_core ba ks scols =
        { (ba.lookup_state ks).2 with area :=
            (((ks.map (fun k => idx_of tk2 k + 1)).enumFrom 0).foldl
              (fun ar rp => merge_row fns (List.range fns.length) 0 rp.2 scols rp.1 ar)
              (ba.lookup_state ks).2.area) } := by
      simp only [merge_agg_core, hsometemp]
      rw [harg]
    have hrows2keys : (rows ++ chunk_rows fns.length c).map (·.1) =
        rows.map (·.1) ++ ks := by
      rw [List.map_append, chunk_rows, ← hks, rows_from_map_fst]
    have htk2new : table_keys ((rows ++ chunk_rows fns.length c).map (·.1)) = tk2 := by
      rw [hrows2keys]
      show (rows.map (·.1) ++ ks).foldl (fun acc k => if k ∈ acc then acc else acc ++ [k]) [] = _
      rw [List.foldl_append]
      rfl
    have hchunkrows : chunk_rows fns.length c = rows_from c fns.length ks 0 := by
      rw [chunk_rows, ← hks]
    simp only [good_state, hcore, htk2new]
    refine ⟨by rw [s1]; exact hfns, by rw [s1]; exact hoffs, by rw [s2]; exact htemp,
      s3, by rw [L1, s4], L2, ?_⟩
    intro k hk
    have hsplitks : key_state fns (rows ++ chunk_rows fns.length c) k =
        (key_payloads (chunk_rows fns.length c) k).foldl (block_step fns)
          (key_state fns rows k) := by
      rw [key_state, key_payloads_append, List.foldl_append]
      rfl
    by_cases hkin : k ∈ ks
    · rw [L4 k hkin, hsplitks, hchunkrows]
      congr 1
      by_cases hko : k ∈ tk
      · rw [haddr_eq_old k hko, s5 _ (by
          have := idx_of_lt_length tk k hko
          omega)]
        exact hblocks k hko
      · have hlow : tk.length ≤ idx_of tk2 k := by
          rw [htk2, hext, idx_of_append_right tk ext k hko]
          omega
        have hhigh : idx_of tk2 k < tk2.length :=
          idx_of_lt_length tk2 k ((hmemtk2 k).mpr (Or.inr hkin))
        rw [s6 (idx_of tk2 k + 1) (by omega) (by omega)]
        have hnorows : k ∉ rows.map (·.1) := fun hh => hko ((table_keys_mem _ k).mpr hh)
        rw [key_state, key_payloads_nil_of_not_mem k rows hnorows, List.foldl_nil]
    · have hko : k ∈ tk := by
        rcases (hmemtk2 k).mp hk with h | h
        · exact h
        · exact absurd h hkin
      have hnochunk : key_payloads (chunk_rows fns.length c) k = [] := by
        refine key_payloads_nil_of_not_mem k _ ?_
        rw [hchunkrows, rows_from_map_fst]
        exact hkin
      rw [L3 (idx_of tk2 k + 1) (by omega) (fun k2 hk2 hh =>
        hkin ((idx_of_inj tk2 k2 k ((hmemtk2 k2).mpr (Or.inr hk2)) hk (by omega)) ▸ hk2))]
      rw [haddr_eq_old k hko, s5 _ (by
        have := idx_of_lt_length tk k hko
        omega)]
      rw [hsplitks, hnochunk, List.foldl_nil, hblocks k hko]

theorem merge_all_good {K V S R : Type} [DecidableEq K] [Inhabited S] [Inhabited V]
    (fns : List (AggregateFunction V S R)) (hne : fns ≠ []) :
    ∀ (cs : List (Chunk K V R)) (rows : List (K × List V)) (ba : BucketAggregator K V S R),
    (∀ c ∈ cs, chunk_wf fns.length c = true) →
    good_state fns rows ba →
    ∃ ba2, ba.merge_all true cs = Except.ok ba2 ∧
      good_state fns (rows ++ cs.flatMap (chunk_rows fns.length)) ba2
  | [], rows, ba, _, hgood => ⟨ba, rfl, by simpa using hgood⟩
  | c :: cs, rows, ba, hwf, hgood => by
    obtain ⟨ba1, hba1, hgood1⟩ := merge_one_good fns hne rows ba c (hwf c (by simp)) hgood
    obtain ⟨ba2, hba2, hgood2⟩ := merge_all_good fns hne cs
      (rows ++ chunk_rows fns.length c) ba1
      (fun c2 hc2 => hwf c2 (List.mem_cons_of_mem _ hc2)) hgood1
    refine ⟨ba2, ?_, ?_⟩
    · show (match ba.merge_one true c with
        | Except.error e => Except.error e
        | Except.ok self2 => self2.merge_all true cs) = Except.ok ba2
      rw [hba1]
      exact hba2
    · rw [List.flatMap_cons, ← List.append_assoc]
      exact hgood2

theorem create_good {K V S R : Type} [DecidableEq K] [Inhabited S] [Inhabited V]
    (fns : List (AggregateFunction V S R)) (hne : fns ≠ [])
    (params : AggregatorParams V S R)
    (hfns : params.aggregate_functions = fns)
    (hoffs : params.offsets_aggregate_states = List.range fns.length) :
    good_state fns ([] : List (K × List V)) (BucketAggregator.create params) := by
  have hie : params.aggregate_functions.isEmpty = false := by
    rw [hfns]
    cases hx : fns with
    | nil => exact absurd hx hne
    | cons a l => rfl
  have hcr : (BucketAggregator.create params : BucketAggregator K V S R) =
      { area := ⟨[fns.map (·.init_state)]⟩, params := params, hash_table := [],
        temp_place := some 0 } := by
    simp only [BucketAggregator.create, hie, Bool.false_eq_true, if_false,
      AggregatorParams.alloc_layout, Area.create]
    rw [hfns]
    rfl
  rw [hcr]
  refine ⟨hfns, hoffs, rfl, rfl, rfl, by simp, ?_⟩
  intro k hk
  simp [table_keys] at hk

theorem table_keys_nodup {K : Type} [DecidableEq K] (l : List K) :
    (table_keys l).Nodup :=
  insert_fold_key_nodup l [] List.nodup_nil

theorem idx_of_getElem_nodup {K : Type} [DecidableEq K] :
    ∀ (l : List K), l.Nodup → ∀ (i : Nat) (h : i < l.length), idx_of l (l.get ⟨i, h⟩) = i
  | [], _, i, h => absurd h (by simp)
  | a :: l, hnd, 0, h => by simp [idx_of]
  | a :: l, hnd, i + 1, h => by
    have hmem : l.get ⟨i, by simpa using h⟩ ∈ l := List.get_mem l i _
    have hne2 : a ≠ l.get ⟨i, by simpa using h⟩ := by
      intro hh
      exact (List.nodup_cons.mp hnd).1 (hh ▸ hmem)
    simp only [List.get_cons_succ, idx_of, if_neg hne2]
    rw [idx_of_getElem_nodup l (List.nodup_cons.mp hnd).2 i (by simpa using h)]

theorem enum_map_eq_range_map {A B : Type} (f : Nat × A → B) (l : List A) (d : A) :
    l.enum.map f = (List.range l.length).map (fun i => f (i, l.getD i d)) := by
  apply List.ext_getElem
  · simp
  · intro i h1 h2
    have hi : i < l.length := by simpa using h1
    rw [List.getElem_map, List.getElem_map, List.getElem_enum, List.getElem_range]
    congr 1
    rw [List.getD_eq_getElem l d hi]

theorem final_rows_good {K V S R : Type} [DecidableEq K] [Inhabited S] [Inhabited V]
    (fns : List (AggregateFunction V S R)) (rows : List (K × List V))
    (ba : BucketAggregator K V S R) (hgood : good_state fns rows ba) :
    final_rows ba = spec_rows fns rows := by
  obtain ⟨hfns, hoffs, htemp, htable, hlen, hscr, hblocks⟩ := hgood
  set tk := table_keys (rows.map (·.1)) with htk
  have hnd : tk.Nodup := table_keys_nodup _
  apply List.ext_getElem
  · simp only [final_rows, spec_rows, htable]
    simp
  · intro i h1 h2
    have hitk : i < tk.length := by
      simp only [final_rows, htable] at h1
      simpa using h1
    simp only [final_rows, spec_rows, htable]
    rw [List.getElem_map, List.getElem_map, List.getElem_map, List.getElem_enum]
    have hmem : tk.get ⟨i, hitk⟩ ∈ tk := List.get_mem tk i hitk
    have hidx : idx_of tk (tk.get ⟨i, hitk⟩) = i := idx_of_getElem_nodup tk hnd i hitk
    have hblock := hblocks (tk.get ⟨i, hitk⟩) hmem
    rw [hidx] at hblock
    have hget : tk[i] = tk.get ⟨i, hitk⟩ := rfl
    dsimp only
    have henum : ba.params.aggregate_functions.enum = fns.enum := by rw [hfns]
    refine Prod.ext rfl ?_
    dsimp only
    rw [henum, results_of]
    apply List.map_congr_left
    intro p hp
    have hp1 : p.1 < fns.length := by
      have : p.1 ∈ fns.enum.map (·.1) := List.mem_map_of_mem _ hp
      rw [List.enum_map_fst] at this
      exact List.mem_range.mp this
    rw [hoffs, List.getD_eq_getElem _ _ (by simpa using hp1), List.getElem_range]
    rw [Area.read, hblock]
    rfl

theorem chunk_out_rows_finish {K V S R : Type} [DecidableEq K] [Inhabited S] [Inhabited R]
    (ba : BucketAggregator K V S R)
    (hfne : ba.params.aggregate_functions ≠ [])
    (hschema : ba.params.output_schema_fields.length =
      ba.params.aggregate_functions.length + 1) :
    chunk_out_rows ba.params.aggregate_functions.length (ba.finish true) = final_rows ba := by
  obtain ⟨f1, f2, f3, f4, f5⟩ := finish_agg_spec ba hfne hschema
  simp only [chunk_out_rows, f4]
  apply List.ext_getElem
  · simp [final_rows]
  · intro i h1 h2
    have hilen : i < ba.hash_table.length := by
      simpa [final_rows] using h2
    simp only [final_rows, List.getElem_map, List.getElem_enum]
    dsimp only
    refine Prod.ext rfl ?_
    dsimp only
    apply List.ext_getElem
    · simp
    · intro idx hidx1 hidx2
      have hidxn : idx < ba.params.aggregate_functions.length := by simpa using hidx1
      simp only [List.getElem_map, List.getElem_range, List.getElem_enum]
      rw [f5 idx hidxn]
      dsimp only
      rw [List.getD_eq_getElem _ _ (by simpa using hilen), List.getElem_map]
      rfl

theorem consume_all_ok {K V S R : Type} :
    ∀ (inputs : List (Chunk K V R)) (self : ParallelFinalAggregator K V S R),
      consume_all self inputs = Except.ok
        { self with buckets_chunks :=
            inputs.foldl (fun m c => bucketsAdd m (bucketOfChunk c) c) self.buckets_chunks }
  | [], self => rfl
  | c :: rest, self => by
    show consume_all
        { self with buckets_chunks := bucketsAdd self.buckets_chunks (bucketOfChunk c) c }
        rest = _
    rw [consume_all_ok rest]
    rfl

theorem assocFind_mem {K B : Type} [DecidableEq K] :
    ∀ (m : List (K × B)) (k : K) (v : B), assocFind m k = some v → (k, v) ∈ m
  | [], _, _, h => by simp [assocFind] at h
  | e :: rest, k, v, h => by
    by_cases he : e.1 = k
    · simp only [assocFind, if_pos he] at h
      cases h
      rw [← he]
      exact List.mem_cons_self e rest
    · simp only [assocFind, if_neg he] at h
      exact List.mem_cons_of_mem _ (assocFind_mem rest k v h)

theorem assocFind_of_mem_nodup {K B : Type} [DecidableEq K] :
    ∀ (m : List (K × B)) (k : K) (v : B), (m.map (·.1)).Nodup → (k, v) ∈ m →
      assocFind m k = some v
  | [], _, _, _, h => absurd h (by simp)
  | e :: rest, k, v, hnd, h => by
    rcases List.mem_cons.mp h with rfl | hmem
    · simp [assocFind]
    · have hke : e.1 ≠ k := by
        intro hh
        have : k ∈ rest.map (·.1) := by
          exact List.mem_map_of_mem _ hmem
        rw [List.map_cons, List.nodup_cons] at hnd
        exact hnd.1 (hh ▸ this)
      simp only [assocFind, if_neg hke]
      exact assocFind_of_mem_nodup rest k v (by
        rw [List.map_cons, List.nodup_cons] at hnd
        exact hnd.2) hmem

theorem bucket_get_fold {K V R : Type} :
    ∀ (inputs : List (Chunk K V R)) (m : List (Int × List (Chunk K V R))) (b : Int),
      bucket_get (inputs.foldl (fun m c => bucketsAdd m (bucketOfChunk c) c) m) b =
        bucket_get m b ++ inputs.filter (fun c => bucketOfChunk c = b)
  | [], _, _ => by simp
  | c :: rest, m, b => by
    rw [List.foldl_cons, bucket_get_fold rest, List.filter_cons]
    by_cases hb : bucketOfChunk c = b
    · rw [bucket_get_bucketsAdd, if_pos hb.symm, hb]
      simp
    · rw [bucket_get_bucketsAdd, if_neg (fun hh => hb hh.symm)]
      rw [if_neg (by simpa using hb)]

theorem buckets_fold_fst_mem {K V R : Type} :
    ∀ (inputs : List (Chunk K V R)) (m : List (Int × List (Chunk K V R))) (b : Int),
      b ∈ (inputs.foldl (fun m c => bucketsAdd m (bucketOfChunk c) c) m).map (·.1) ↔
        b ∈ m.map (·.1) ∨ ∃ c ∈ inputs, bucketOfChunk c = b
  | [], m, b => by simp
  | c :: rest, m, b => by
    rw [List.foldl_cons, buckets_fold_fst_mem rest]
    have hadd : ∀ (m2 : List (Int × List (Chunk K V R))),
        b ∈ (bucketsAdd m2 (bucketOfChunk c) c).map (·.1) ↔
          b ∈ m2.map (·.1) ∨ bucketOfChunk c = b := by
      intro m2
      induction m2 with
      | nil => simp [bucketsAdd, eq_comm]
      | cons e rest2 ih =>
        by_cases he : e.1 = bucketOfChunk c
        · simp only [bucketsAdd, if_pos he, List.map_cons, List.mem_cons]
          constructor
          · rintro (h | h)
            · exact Or.inl (Or.inl h)
            · exact Or.inl (Or.inr h)
          · rintro ((h | h) | h)
            · exact Or.inl h
            · exact Or.inr h
            · exact Or.inl (he ▸ h.symm)
        · simp only [bucketsAdd, if_neg he, List.map_cons, List.mem_cons, ih]
          tauto
    rw [hadd]
    simp only [List.mem_cons]
    constructor
    · rintro (h | h)
      · rcases h with h | h
        · exact Or.inl h
        · exact Or.inr ⟨c, Or.inl rfl, h⟩
      · obtain ⟨c2, hc2, hb2⟩ := h
        exact Or.inr ⟨c2, Or.inr hc2, hb2⟩
    · rintro (h | h)
      · exact Or.inl (Or.inl h)
      · obtain ⟨c2, hc2, hb2⟩ := h
        rcases hc2 with rfl | hc2
        · exact Or.inl (Or.inr hb2)
        · exact Or.inr ⟨c2, hc2, hb2⟩

theorem bucketsAdd_fst_nodup {K V R : Type} :
    ∀ (m : List (Int × List (Chunk K V R))) (b : Int) (c : Chunk K V R),
      (m.map (·.1)).Nodup → ((bucketsAdd m b c).map (·.1)).Nodup
  | [], b, c, _ => by simp [bucketsAdd]
  | e :: rest, b, c, hnd => by
    rw [List.map_cons, List.nodup_cons] at hnd
    by_cases he : e.1 = b
    · simp only [bucketsAdd, if_pos he, List.map_cons, List.nodup_cons]
      exact hnd
    · simp only [bucketsAdd, if_neg he, List.map_cons, List.nodup_cons]
      refine ⟨?_, bucketsAdd_fst_nodup rest b c hnd.2⟩
      intro hmem
      have : ∀ (m2 : List (Int × List (Chunk K V R))) (k : Int),
          k ∈ (bucketsAdd m2 b c).map (·.1) → k ∈ m2.map (·.1) ∨ k = b := by
        intro m2 k
        induction m2 with
        | nil => simp [bucketsAdd]
        | cons e2 rest2 ih =>
          by_cases he2 : e2.1 = b
          · simp only [bucketsAdd, if_pos he2, List.map_cons, List.mem_cons]
            tauto
          · simp only [bucketsAdd, if_neg he2, List.map_cons, List.mem_cons]
            intro h
            rcases h with h | h
            · exact Or.inl (Or.inl h)
            · rcases ih h with h2 | h2
              · exact Or.inl (Or.inr h2)
              · exact Or.inr h2
      rcases this rest e.1 hmem with h2 | h2
      · exact hnd.1 h2
      · exact he h2

theorem buckets_fold_nodup {K V R : Type} :
    ∀ (inputs : List (Chunk K V R)) (m : List (Int × List (Chunk K V R))),
      (m.map (·.1)).Nodup →
      ((inputs.foldl (fun m c => bucketsAdd m (bucketOfChunk c) c) m).map (·.1)).Nodup
  | [], _, h => h
  | c :: rest, m, h => by
    rw [List.foldl_cons]
    exact buckets_fold_nodup rest _ (bucketsAdd_fst_nodup m (bucketOfChunk c) c h)

theorem flatMap_chunk_rows_fst {K V R : Type} [Inhabited V] (n : Nat) :
    ∀ (inputs : List (Chunk K V R)),
      (inputs.flatMap (chunk_rows n)).map (·.1) = inputs.flatMap (chunk_keys n)
  | [] => rfl
  | c :: rest => by
    rw [List.flatMap_cons, List.flatMap_cons, List.map_append,
      flatMap_chunk_rows_fst n rest, chunk_rows, rows_from_map_fst]

theorem key_payloads_filter_flatMap {K V R : Type} [DecidableEq K] [Inhabited V]
    (n : Nat) (k : K) (p : Chunk K V R → Bool) :
    ∀ (inputs : List (Chunk K V R)),
      (∀ c ∈ inputs, k ∈ chunk_keys n c → p c = true) →
      key_payloads ((inputs.filter p).flatMap (chunk_rows n)) k =
        key_payloads (inputs.flatMap (chunk_rows n)) k
  | [], _ => rfl
  | c :: rest, h => by
    rw [List.filter_cons, List.flatMap_cons, key_payloads_append]
    by_cases hp : p c = true
    · rw [if_pos hp, List.flatMap_cons, key_payloads_append,
        key_payloads_filter_flatMap n k p rest (fun c2 hc2 => h c2 (List.mem_cons_of_mem _ hc2))]
    · rw [if_neg hp]
      have hk : k ∉ chunk_keys n c := fun hh => hp (h c (by simp) hh)
      rw [key_payloads_nil_of_not_mem k (chunk_rows n c) (by
        rw [chunk_rows, rows_from_map_fst]
        exact hk)]
      rw [List.nil_append,
        key_payloads_filter_flatMap n k p rest (fun c2 hc2 => h c2 (List.mem_cons_of_mem _ hc2))]

theorem flatMap_tables_nodup {A K : Type} [DecidableEq K] (f : A → List K) :
    ∀ (m : List (Int × A)),
      ((m.map (·.1)).Nodup) →
      (∀ e ∈ m, (f e.2).Nodup) →
      (∀ e ∈ m, ∀ e2 ∈ m, ∀ k, k ∈ f e.2 → k ∈ f e2.2 → e.1 = e2.1) →
      (m.flatMap (fun e => f e.2)).Nodup
  | [], _, _, _ => List.nodup_nil
  | e :: m, hnd, hen, hdisj => by
    rw [List.flatMap_cons]
    rw [List.map_cons, List.nodup_cons] at hnd
    refine List.Nodup.append (hen e (by simp))
      (flatMap_tables_nodup f m hnd.2
        (fun e2 he2 => hen e2 (List.mem_cons_of_mem _ he2))
        (fun e2 he2 e3 he3 => hdisj e2 (List.mem_cons_of_mem _ he2) e3
          (List.mem_cons_of_mem _ he3))) ?_
    intro k hk1 hk2
    obtain ⟨e2, he2, hk2'⟩ := List.mem_flatMap.mp hk2
    have := hdisj e (by simp) e2 (List.mem_cons_of_mem _ he2) k hk1 hk2'
    exact hnd.1 (this ▸ List.mem_map_of_mem (·.1) he2)

theorem create_params {K V S R : Type} (params : AggregatorParams V S R) :
    (BucketAggregator.create params : BucketAggregator K V S R).params = params := by
  simp only [BucketAggregator.create]
  split <;> rfl

theorem merge_chunks_create_rows {K V S R : Type} [DecidableEq K] [Inhabited S] [Inhabited V]
    [Inhabited R] (params : AggregatorParams V S R)
    (hne : params.aggregate_functions ≠ [])
    (hoffs : params.offsets_aggregate_states = List.range params.aggregate_functions.length)
    (hschema : params.output_schema_fields.length = params.aggregate_functions.length + 1)
    (cs : List (Chunk K V R))
    (hwf : ∀ c ∈ cs, chunk_wf params.aggregate_functions.length c = true) :
    ∃ ba2, BucketAggregator.merge_chunks (K := K) true (BucketAggregator.create params) cs =
        Except.ok (ba2, [ba2.finish true]) ∧
      chunk_out_rows params.aggregate_functions.length (ba2.finish true) =
        spec_rows params.aggregate_functions
          (cs.flatMap (chunk_rows params.aggregate_functions.length)) := by
  obtain ⟨ba2, hba2, hgood2⟩ := merge_all_good params.aggregate_functions hne cs []
    (BucketAggregator.create params) hwf
    (create_good params.aggregate_functions hne params rfl hoffs)
  have hparams2 : ba2.params = params := by
    rw [merge_all_params true cs (BucketAggregator.create params) ba2 hba2, create_params]
  have hgood2' : good_state params.aggregate_functions
      (cs.flatMap (chunk_rows params.aggregate_functions.length)) ba2 := by
    simpa using hgood2
  refine ⟨ba2, ?_, ?_⟩
  · simp only [BucketAggregator.merge_chunks, hba2]
  · have h1 := chunk_out_rows_finish ba2 (by rw [hparams2]; exact hne)
      (by rw [hparams2]; exact hschema)
    rw [hparams2] at h1
    rw [h1]
    exact final_rows_good params.aggregate_functions _ ba2 hgood2'

theorem serial_rows {K V S R : Type} [DecidableEq K] [Inhabited S] [Inhabited V] [Inhabited R]
    (params : AggregatorParams V S R)
    (hne : params.aggregate_functions ≠ [])
    (hoffs : params.offsets_aggregate_states = List.range params.aggregate_functions.length)
    (hschema : params.output_schema_fields.length = params.aggregate_functions.length + 1)
    (inputs : List (Chunk K V R))
    (hwf : ∀ c ∈ inputs, chunk_wf params.aggregate_functions.length c = true) :
    ∃ outs, serial_reference true params inputs = Except.ok outs ∧
      outs.flatMap (chunk_out_rows params.aggregate_functions.length) =
        spec_rows params.aggregate_functions
          (inputs.flatMap (chunk_rows params.aggregate_functions.length)) := by
  obtain ⟨ba2, hmc, hrows⟩ := merge_chunks_create_rows params hne hoffs hschema inputs hwf
  refine ⟨[ba2.finish true], ?_, ?_⟩
  · simp only [serial_reference, hmc]
  · rw [List.flatMap_cons, List.flatMap_nil, List.append_nil]
    exact hrows

theorem run_buckets_rows {K V S R : Type} [DecidableEq K] [Inhabited S] [Inhabited V] [Inhabited R]
    (params : AggregatorParams V S R)
    (hne : params.aggregate_functions ≠ [])
    (hoffs : params.offsets_aggregate_states = List.range params.aggregate_functions.length)
    (hschema : params.output_schema_fields.length = params.aggregate_functions.length + 1) :
    ∀ (m : List (Int × List (Chunk K V R))),
      (∀ e ∈ m, ∀ c ∈ e.2, chunk_wf params.aggregate_functions.length c = true) →
      ∃ outs, run_buckets true params m = Except.ok outs ∧
        outs.flatMap (chunk_out_rows params.aggregate_functions.length) =
          m.flatMap (fun e => spec_rows params.aggregate_functions
            (e.2.flatMap (chunk_rows params.aggregate_functions.length)))
  | [], _ => ⟨[], rfl, rfl⟩
  | e :: m, hwf => by
    obtain ⟨ba2, hmc, hrows⟩ := merge_chunks_create_rows params hne hoffs hschema e.2
      (hwf e (by simp))
    obtain ⟨outs, houts, hoflat⟩ := run_buckets_rows params hne hoffs hschema m
      (fun e2 he2 => hwf e2 (List.mem_cons_of_mem _ he2))
    refine ⟨[ba2.finish true] ++ outs, ?_, ?_⟩
    · show (match BucketAggregator.merge_chunks (K := K) true
            (BucketAggregator.create params) e.2 with
        | Except.error er => Except.error er
        | Except.ok pr =>
          match run_buckets true params m with
          | Except.error er => Except.error er
          | Except.ok more => Except.ok (pr.2 ++ more)) = _
      rw [hmc, houts]
    · rw [List.flatMap_append, List.flatMap_cons, List.flatMap_nil, List.append_nil,
        List.flatMap_cons, hrows, hoflat]

theorem flatMap_congr_mem {A B : Type} :
    ∀ (l : List A) (f g : A → List B), (∀ a ∈ l, f a = g a) → l.flatMap f = l.flatMap g
  | [], _, _, _ => rfl
  | a :: l, f, g, h => by
    rw [List.flatMap_cons, List.flatMap_cons, h a (by simp),
      flatMap_congr_mem l f g (fun a2 ha2 => h a2 (List.mem_cons_of_mem _ ha2))]

theorem flatMap_map_comm {A B C : Type} (g : B → C) :
    ∀ (l : List A) (f : A → List B),
      l.flatMap (fun a => (f a).map g) = (l.flatMap f).map g
  | [], _ => rfl
  | a :: l, f => by
    rw [List.flatMap_cons, List.flatMap_cons, List.map_append, flatMap_map_comm g l f]

/-- C1: for an input stream whose chunks all carry non-negative bucket ids and
whose group keys are partitioned by bucket (no key in two distinct buckets),
with `max_threads ≥ 2` and at least two buckets, `generate` takes the parallel
path and the multiset of `(group key, final aggregate values)` output rows
equals the multiset produced by one serial bucket aggregator run over the
plain concatenation of all consumed chunks. -/
theorem parallel_equals_serial {K V S R : Type} [DecidableEq K] [Inhabited S] [Inhabited V]
    [Inhabited R]
    (params : AggregatorParams V S R) (inputs : List (Chunk K V R)) (max_threads : Nat)
    (hne : params.aggregate_functions ≠ [])
    (hoffs : params.offsets_aggregate_states = List.range params.aggregate_functions.length)
    (hschema : params.output_schema_fields.length = params.aggregate_functions.length + 1)
    (hwf : ∀ c ∈ inputs, chunk_wf params.aggregate_functions.length c = true)
    (hmt : 2 ≤ max_threads)
    (hnonneg : ∀ c ∈ inputs, 0 ≤ bucketOfChunk c)
    (hpart : ∀ c1 ∈ inputs, ∀ c2 ∈ inputs,
      ∀ k ∈ chunk_keys params.aggregate_functions.length c1,
      k ∈ chunk_keys params.aggregate_functions.length c2 →
      bucketOfChunk c1 = bucketOfChunk c2)
    (hbuckets : 2 ≤ (inputs.foldl (fun m c => bucketsAdd m (bucketOfChunk c) c)
      ([] : List (Int × List (Chunk K V R)))).length) :
    ∃ (st : ParallelFinalAggregator K V S R) (pouts souts : List (Chunk K V R)),
      consume_all (collector0 params max_threads) inputs = Except.ok st ∧
      st.dispatch_of = DispatchPath.parallelPath ∧
      st.generate true = Except.ok pouts ∧
      serial_reference true params inputs = Except.ok souts ∧
      (↑(pouts.flatMap (chunk_out_rows params.aggregate_functions.length)) :
          Multiset (K × List R)) =
        ↑(souts.flatMap (chunk_out_rows params.aggregate_functions.length)) := by
  set n := params.aggregate_functions.length with hn
  set m := inputs.foldl (fun m c => bucketsAdd m (bucketOfChunk c) c)
    ([] : List (Int × List (Chunk K V R))) with hm
  have hneg1 : ¬ ((-1 : Int) ∈ m.map (·.1)) := by
    rw [hm, buckets_fold_fst_mem]
    rintro (h | ⟨c, hc, hb⟩)
    · simp at h
    · have := hnonneg c hc
      omega
  have hndm : (m.map (·.1)).Nodup := by
    rw [hm]
    exact buckets_fold_nodup inputs [] (by simp)
  have hcontent : ∀ e ∈ m, e.2 = inputs.filter (fun c => bucketOfChunk c = e.1) := by
    intro e he
    have h1 : assocFind m e.1 = some e.2 :=
      assocFind_of_mem_nodup m e.1 e.2 hndm he
    have h3 := bucket_get_fold inputs [] e.1
    rw [← hm] at h3
    rw [bucket_get, h1, Option.getD_some] at h3
    rw [h3]
    rfl
  have hwfbuckets : ∀ e ∈ m, ∀ c ∈ e.2, chunk_wf n c = true := by
    intro e he c hc
    rw [hcontent e he] at hc
    exact hwf c (List.mem_filter.mp hc).1
  obtain ⟨pouts, hpouts, hpflat⟩ := run_buckets_rows params hne hoffs hschema m hwfbuckets
  obtain ⟨souts, hsouts, hsflat⟩ := serial_rows params hne hoffs hschema inputs hwf
  have hcondf : ¬(max_threads ≤ 1 ∨ m.length = 1 ∨ (assocFind m (-1)).isSome = true) := by
    rintro (h | h | h)
    · omega
    · omega
    · exact hneg1 (assocFind_isSome_iff.mp h)
  have hgt1 : m.length > 1 := by omega
  refine ⟨{ params := params, max_threads := max_threads, buckets_chunks := m },
    pouts, souts, ?_, ?_, ?_, ?_, ?_⟩
  · exact consume_all_ok inputs (collector0 params max_threads)
  · simp only [ParallelFinalAggregator.dispatch_of]
    rw [if_neg hcondf, if_pos hgt1]
  · simp only [ParallelFinalAggregator.generate]
    rw [if_neg hcondf, if_pos hgt1]
    exact hpouts
  · exact hsouts
  · rw [hpflat, hsflat]
    have hbucketkey : ∀ e ∈ m, ∀ k,
        k ∈ table_keys ((e.2.flatMap (chunk_rows n)).map (·.1)) →
        ∃ c0 ∈ inputs, bucketOfChunk c0 = e.1 ∧ k ∈ chunk_keys n c0 := by
      intro e he k hk
      rw [table_keys_mem, flatMap_chunk_rows_fst] at hk
      obtain ⟨c0, hc0, hkc0⟩ := List.mem_flatMap.mp hk
      rw [hcontent e he] at hc0
      obtain ⟨hc0in, hc0b⟩ := List.mem_filter.mp hc0
      exact ⟨c0, hc0in, by simpa using hc0b, hkc0⟩
    have hstepA : ∀ e ∈ m,
        spec_rows params.aggregate_functions (e.2.flatMap (chunk_rows n)) =
          (table_keys ((e.2.flatMap (chunk_rows n)).map (·.1))).map
            (fun k => (k, results_of params.aggregate_functions
              (key_state params.aggregate_functions (inputs.flatMap (chunk_rows n)) k))) := by
      intro e he
      rw [spec_rows]
      apply List.map_congr_left
      intro k hk
      obtain ⟨c0, hc0in, hc0b, hkc0⟩ := hbucketkey e he k hk
      have hallb : ∀ c ∈ inputs, k ∈ chunk_keys n c →
          (fun c => decide (bucketOfChunk c = e.1)) c = true := by
        intro c hc hkc
        have := hpart c hc c0 hc0in k hkc hkc0
        simp only [decide_eq_true_eq]
        rw [this, hc0b]
      have hpay := key_payloads_filter_flatMap n k
        (fun c => decide (bucketOfChunk c = e.1)) inputs hallb
      rw [hcontent e he]
      rw [key_state, key_state, hpay]
    rw [flatMap_congr_mem m _ _ hstepA, flatMap_map_comm]
    have hkeysmem : ∀ k, k ∈ m.flatMap
        (fun e => table_keys ((e.2.flatMap (chunk_rows n)).map (·.1))) ↔
        k ∈ table_keys ((inputs.flatMap (chunk_rows n)).map (·.1)) := by
      intro k
      rw [table_keys_mem, flatMap_chunk_rows_fst]
      constructor
      · intro hk
        obtain ⟨e, he, hke⟩ := List.mem_flatMap.mp hk
        obtain ⟨c0, hc0in, _, hkc0⟩ := hbucketkey e he k hke
        exact List.mem_flatMap.mpr ⟨c0, hc0in, hkc0⟩
      · intro hk
        obtain ⟨c0, hc0in, hkc0⟩ := List.mem_flatMap.mp hk
        have hbmem : bucketOfChunk c0 ∈ m.map (·.1) := by
          rw [hm, buckets_fold_fst_mem]
          exact Or.inr ⟨c0, hc0in, rfl⟩
        obtain ⟨e, hem, hefst⟩ := List.mem_map.mp hbmem
        refine List.mem_flatMap.mpr ⟨e, hem, ?_⟩
        rw [table_keys_mem, flatMap_chunk_rows_fst]
        refine List.mem_flatMap.mpr ⟨c0, ?_, hkc0⟩
        rw [hcontent e hem]
        exact List.mem_filter.mpr ⟨hc0in, by simp [hefst]⟩
    have hnodupL : (m.flatMap
        (fun e => table_keys ((e.2.flatMap (chunk_rows n)).map (·.1)))).Nodup := by
      refine flatMap_tables_nodup
        (fun A => table_keys ((A.flatMap (chunk_rows n)).map (·.1))) m hndm
        (fun e _ => table_keys_nodup _) ?_
      intro e he e2 he2 k hk1 hk2
      obtain ⟨c0, hc0in, hc0b, hkc0⟩ := hbucketkey e he k hk1
      obtain ⟨c1, hc1in, hc1b, hkc1⟩ := hbucketkey e2 he2 k hk2
      rw [← hc0b, ← hc1b]
      exact hpart c0 hc0in c1 hc1in k hkc0 hkc1
    have hkeyseq : (↑(m.flatMap
        (fun e => table_keys ((e.2.flatMap (chunk_rows n)).map (·.1)))) : Multiset K) =
        ↑(table_keys ((inputs.flatMap (chunk_rows n)).map (·.1))) := by
      refine (Multiset.Nodup.ext ?_ ?_).mpr ?_
      · exact Multiset.coe_nodup.mpr hnodupL
      · exact Multiset.coe_nodup.mpr (table_keys_nodup _)
      · intro k
        rw [Multiset.mem_coe, Multiset.mem_coe]
        exact hkeysmem k
    rw [spec_rows]
    rw [← Multiset.map_coe, ← Multiset.map_coe, hkeyseq]

/-- Witness for C1: the two-bucket SUM scenario (keys `[1,1,2]` in bucket 0 and
`[3,3]` in bucket 1, four threads) satisfies every hypothesis, so the parallel
path's output rows form the same multiset as the serial reference run. -/
theorem parallel_equals_serial_witness :
    ∃ (st : ParallelFinalAggregator Nat Int Int Int) (pouts souts : List (Chunk Nat Int Int)),
      consume_all (collector0 sumParams 4) [chunkB0, chunkB1] = Except.ok st ∧
      st.dispatch_of = DispatchPath.parallelPath ∧
      st.generate true = Except.ok pouts ∧
      serial_reference true sumParams [chunkB0, chunkB1] = Except.ok souts ∧
      (↑(pouts.flatMap (chunk_out_rows sumParams.aggregate_functions.length)) :
          Multiset (Nat × List Int)) =
        ↑(souts.flatMap (chunk_out_rows sumParams.aggregate_functions.length)) :=
  parallel_equals_serial sumParams [chunkB0, chunkB1] 4
    (List.cons_ne_nil sumFn []) rfl rfl (by decide) (by decide) (by decide) (by decide)
    (by decide)

end DatabendAgg
